import Mathlib

/-!
# Verification of `python_web_scraper_cleaner`

Shallow embedding of the core of the repository:

* `scraper_cleaner/html_cleaner_core.py` — text normalization, flat output
  naming, overwrite policy, and the batch runner with its manifest;
* `mcp_server/news_server.py` — term-frequency retrieval and the streaming
  question-answering entry point.

Python strings are modelled as `List Char`; machine behaviour that the
claims depend on (per-line stripping, `str.split`, `str.count`,
`str.replace` for line endings, MD5 of the relative path) is embedded
directly from the source.
-/

namespace Scraper


/-! ## Python string primitives -/

/-- The characters Python's `str.strip` / `str.rstrip` treat as whitespace
(ASCII fragment, which is all the repository's data uses). -/
def isPySpace (c : Char) : Bool :=
  c = ' ' || c = '\t' || c = '\n' || c = '\r' || c = '\x0b' || c = '\x0c'

/-- `str.lstrip()` — drop leading whitespace. -/
def lstrip (s : List Char) : List Char := s.dropWhile isPySpace

/-- `str.rstrip()` — drop trailing whitespace. -/
def rstrip (s : List Char) : List Char := (s.reverse.dropWhile isPySpace).reverse

/-- `str.strip()` — drop whitespace at both ends. -/
def strip (s : List Char) : List Char := rstrip (lstrip s)

/-- `text.replace("\r\n", "\n").replace("\r", "\n")`.  The two Python
replacements compose to: every `"\r\n"` pair becomes `"\n"` (occurrences of
a two-character pattern starting with `'\r'` and ending with `'\n'` cannot
overlap), and every remaining `'\r'` becomes `'\n'`; this single left-to-right
scan performs exactly that. -/
def crlfToLf : List Char → List Char
  | [] => []
  | [c] => if c = '\r' then ['\n'] else [c]
  | c :: d :: rest =>
    if c = '\r' then
      if d = '\n' then '\n' :: crlfToLf rest
      else '\n' :: crlfToLf (d :: rest)
    else c :: crlfToLf (d :: rest)

/-- `text.split("\n")` — split at every newline, keeping empty pieces. -/
def splitNl : List Char → List (List Char)
  | [] => [[]]
  | c :: rest =>
    if c = '\n' then [] :: splitNl rest
    else
      match splitNl rest with
      | [] => [[c]]
      | l :: ls => (c :: l) :: ls

/-- `"\n".join(lines)`. -/
def joinNl : List (List Char) → List Char
  | [] => []
  | [l] => l
  | l :: ls => l ++ '\n' :: joinNl ls

/-! ## `normalize_text` and `normalize_markdown`
(`scraper_cleaner/html_cleaner_core.py`, lines 36–58) -/

/-- The blank-line collapsing loop of `normalize_text`: `blank_run` counts
the current run of blank lines; a blank line is appended (as the empty
line) only while the run length is at most 2. -/
def collapseBlanks : List (List Char) → Nat → List (List Char)
  | [], _ => []
  | ln :: rest, blankRun =>
    if (strip ln).isEmpty then
      if blankRun + 1 ≤ 2 then [] :: collapseBlanks rest (blankRun + 1)
      else collapseBlanks rest (blankRun + 1)
    else ln :: collapseBlanks rest 0

/-- `normalize_text` — unify line endings, strip each line's trailing
whitespace, collapse runs of 3+ blank lines to 2, strip the whole document
and append one newline. -/
def normalize_text (text : List Char) : List Char :=
  let lines := (splitNl (crlfToLf text)).map rstrip
  strip (joinNl (collapseBlanks lines 0)) ++ ['\n']

/-- `normalize_markdown` — unify line endings, strip the document and
append one newline. -/
def normalize_markdown (md : List Char) : List Char :=
  strip (crlfToLf md) ++ ['\n']

/-! ## Blank-line structure of the collapsed line list -/

/-- No window of three successive lines is entirely blank. -/
def noTripleBlank : List (List Char) → Prop
  | a :: b :: c :: rest =>
    ¬(a = [] ∧ b = [] ∧ c = []) ∧ noTripleBlank (b :: c :: rest)
  | _ => True

/-- Number of leading empty lines. -/
def leadE : List (List Char) → Nat
  | [] => 0
  | [] :: rest => leadE rest + 1
  | _ :: _ => 0

/-! ## Trimming blank lines at the ends of a line list -/

/-- Leading empty lines removed. -/
def dropLeadBlank (L : List (List Char)) : List (List Char) :=
  L.dropWhile (fun l => l.isEmpty)

/-- Trailing empty lines removed. -/
def dropTailBlank (L : List (List Char)) : List (List Char) :=
  (L.reverse.dropWhile (fun l => l.isEmpty)).reverse

/-- Shape of the line list produced by `normalize_text`: newline- and
carriage-return-free lines, each line right-stripped, blank lines are
empty, at most two consecutive blanks, and a non-blank, left-stripped
first line and non-blank last line when the list is nonempty. -/
structure NormLines (M : List (List Char)) : Prop where
  no_nl : ∀ l ∈ M, '\n' ∉ l
  no_cr : ∀ l ∈ M, '\r' ∉ l
  rfix : ∀ l ∈ M, rstrip l = l
  blank_or : ∀ l ∈ M, l = [] ∨ strip l ≠ []
  triple : noTripleBlank M
  headOk : ∀ a rest, M = a :: rest → lstrip a = a ∧ strip a ≠ []
  lastOk : ∀ e, M.getLast? = some e → e ≠ []

/-! ## Newline runs -/

/-- Scanning left to right with `cur` newlines immediately before the
current position, every maximal run of consecutive newline characters has
length at most `k`. -/
def nlRunBound (k : Nat) : List Char → Nat → Bool
  | [], _ => true
  | c :: rest, cur =>
    if c = '\n' then decide (cur + 1 ≤ k) && nlRunBound k rest (cur + 1)
    else nlRunBound k rest 0

/-- The string ends with a newline and the character before it, if any, is
not a newline. -/
def endsOneNl (s : List Char) : Bool :=
  match s.reverse with
  | [] => false
  | c :: rest =>
    decide (c = '\n') &&
      (match rest with
       | [] => true
       | d :: _ => decide (d ≠ '\n'))

/-! ## MD5 (`hashlib.md5`), on 32-bit words modelled as `Nat % 2^32` -/

def mask32 (n : Nat) : Nat := n % 4294967296

def not32 (n : Nat) : Nat := 4294967295 - n

def rotl32 (x s : Nat) : Nat :=
  mask32 (x * 2 ^ s) + x / 2 ^ (32 - s)

/-- UTF-8 encoding of one code point. -/
def utf8Char (n : Nat) : List Nat :=
  if n < 128 then [n]
  else if n < 2048 then [192 + n / 64, 128 + n % 64]
  else if n < 65536 then [224 + n / 4096, 128 + n / 64 % 64, 128 + n % 64]
  else [240 + n / 262144, 128 + n / 4096 % 64, 128 + n / 64 % 64, 128 + n % 64]

def utf8Bytes (s : List Char) : List Nat :=
  (s.map (fun c => utf8Char c.toNat)).flatten

/-- `k` bytes of `n`, little-endian. -/
def leBytes : Nat → Nat → List Nat
  | 0, _ => []
  | k + 1, n => n % 256 :: leBytes k (n / 256)

/-- MD5 padding: append `0x80`, zero-fill to 56 mod 64 bytes, then the
original length in bits as 8 little-endian bytes. -/
def md5pad (msg : List Nat) : List Nat :=
  let len := msg.length
  let z := (120 - (len + 1) % 64) % 64
  msg ++ 128 :: List.replicate z 0 ++ leBytes 8 (len * 8)

def toBlocksFuel : Nat → List Nat → List (List Nat)
  | 0, _ => []
  | _ + 1, [] => []
  | fuel + 1, l => l.take 64 :: toBlocksFuel fuel (l.drop 64)

def toBlocks (l : List Nat) : List (List Nat) := toBlocksFuel l.length l

def toWordsFuel : Nat → List Nat → List Nat
  | 0, _ => []
  | _ + 1, [] => []
  | fuel + 1, l =>
    (l.getD 0 0 + 256 * l.getD 1 0 + 65536 * l.getD 2 0 +
      16777216 * l.getD 3 0) :: toWordsFuel fuel (l.drop 4)

/-- 16 little-endian 32-bit words of a 64-byte block. -/
def toWords (block : List Nat) : List Nat := toWordsFuel block.length block

/-- The 64 MD5 additive constants, `floor(abs(sin(i+1)) * 2^32)`. -/
def md5K : List Nat :=
  [3614090360, 3905402710, 606105819, 3250441966, 4118548399, 1200080426,
   2821735955, 4249261313, 1770035416, 2336552879, 4294925233, 2304563134,
   1804603682, 4254626195, 2792965006, 1236535329, 4129170786, 3225465664,
   643717713, 3921069994, 3593408605, 38016083, 3634488961, 3889429448,
   568446438, 3275163606, 4107603335, 1163531501, 2850285829, 4243563512,
   1735328473, 2368359562, 4294588738, 2272392833, 1839030562, 4259657740,
   2763975236, 1272893353, 4139469664, 3200236656, 681279174, 3936430074,
   3572445317, 76029189, 3654602809, 3873151461, 530742520, 3299628645,
   4096336452, 1126891415, 2878612391, 4237533241, 1700485571, 2399980690,
   4293915773, 2240044497, 1873313359, 4264355552, 2734768916, 1309151649,
   4149444226, 3174756917, 718787259, 3951481745]

/-- The 64 MD5 per-round left-rotation amounts. -/
def md5S : List Nat :=
  [7, 12, 17, 22, 7, 12, 17, 22, 7, 12, 17, 22, 7, 12, 17, 22,
   5, 9, 14, 20, 5, 9, 14, 20, 5, 9, 14, 20, 5, 9, 14, 20,
   4, 11, 16, 23, 4, 11, 16, 23, 4, 11, 16, 23, 4, 11, 16, 23,
   6, 10, 15, 21, 6, 10, 15, 21, 6, 10, 15, 21, 6, 10, 15, 21]

/-- One MD5 round step `i` on state `(A, B, C, D)` with message words `m`. -/
def md5step (m : List Nat) (st : Nat × Nat × Nat × Nat) (i : Nat) :
    Nat × Nat × Nat × Nat :=
  let A := st.1
  let B := st.2.1
  let C := st.2.2.1
  let D := st.2.2.2
  let f :=
    if i < 16 then Nat.lor (Nat.land B C) (Nat.land (not32 B) D)
    else if i < 32 then Nat.lor (Nat.land D B) (Nat.land (not32 D) C)
    else if i < 48 then Nat.xor (Nat.xor B C) D
    else Nat.xor C (Nat.lor B (not32 D))
  let g :=
    if i < 16 then i
    else if i < 32 then (5 * i + 1) % 16
    else if i < 48 then (3 * i + 5) % 16
    else 7 * i % 16
  let fv := mask32 (f + A + md5K.getD i 0 + m.getD g 0)
  (D, mask32 (B + rotl32 fv (md5S.getD i 0)), B, C)

def md5init : Nat × Nat × Nat × Nat :=
  (1732584193, 4023233417, 2562383102, 271733878)

/-- MD5 digest bytes of a byte string. -/
def md5 (msg : List Nat) : List Nat :=
  let final := (toBlocks (md5pad msg)).foldl
    (fun st block =>
      let r := (List.range 64).foldl (md5step (toWords block)) st
      (mask32 (st.1 + r.1), mask32 (st.2.1 + r.2.1),
        mask32 (st.2.2.1 + r.2.2.1), mask32 (st.2.2.2 + r.2.2.2)))
    md5init
  leBytes 4 final.1 ++ leBytes 4 final.2.1 ++
    leBytes 4 final.2.2.1 ++ leBytes 4 final.2.2.2

def hexDigit (n : Nat) : Char :=
  if n < 10 then Char.ofNat (48 + n) else Char.ofNat (87 + n)

def byteHex (b : Nat) : List Char := [hexDigit (b / 16), hexDigit (b % 16)]

/-- `hashlib.md5(s.encode("utf-8")).hexdigest()` as a character list. -/
def md5hex (s : List Char) : List Char :=
  ((md5 (utf8Bytes s)).map byteHex).flatten

/-! ## `make_flat_filename`
(`scraper_cleaner/html_cleaner_core.py`, lines 102–124).  A relative path
is modelled by its list of parts (`Path.parts`); `str(relative_path)`
joins the parts with `/`. -/

/-- `sep.join(parts)` for a multi-character separator. -/
def joinStr (sep : List Char) : List (List Char) → List Char
  | [] => []
  | [l] => l
  | l :: ls => l ++ sep ++ joinStr sep ls

/-- `base_name.rsplit(".", 1)[0] if "." in base_name else base_name`. -/
def dropLastExt (name : List Char) : List Char :=
  if '.' ∈ name then ((name.reverse.dropWhile (fun c => !(c = '.'))).drop 1).reverse
  else name

def make_flat_filename (relative_path : List (List Char))
    (output_format : List Char) : List Char :=
  let base_name := dropLastExt (joinStr ['_', '_'] relative_path)
  let path_str := joinStr ['/'] relative_path
  let hash_suffix := (md5hex path_str).take 8
  let ext := if output_format = "txt".toList then ".txt".toList else ".md".toList
  base_name ++ ['_', '_'] ++ hash_suffix ++ ext

/-! ## Filesystem model and `write_output_text`
(`scraper_cleaner/html_cleaner_core.py`, lines 127–180).  The filesystem
is a finite map from paths to contents plus the sets of paths on which
`stat` or `write_text` raise `OSError`; directory creation has no
observable effect in this model. -/

structure FS where
  files : List (List Char × List Char)
  statFails : List (List Char)
  writeFails : List (List Char)
  deriving DecidableEq

def fsLookup (fs : FS) (p : List Char) : Option (List Char) :=
  (fs.files.find? (fun e => decide (e.1 = p))).map (fun e => e.2)

def fsWrite (fs : FS) (p content : List Char) : FS :=
  ⟨(p, content) :: fs.files.filter (fun e => !decide (e.1 = p)),
    fs.statFails, fs.writeFails⟩

/-- `out_path.write_text(text)`: fails on paths where writing raises. -/
def fsWriteText (fs : FS) (p text : List Char) :
    Except (List Char) (FS × List Char) :=
  if p ∈ fs.writeFails then Except.error ("OSError: write failed".toList)
  else Except.ok (fsWrite fs p text, p)

/-- `input_file.relative_to(input_dir)` on path parts: drops the prefix,
or fails with `ValueError` when `input_dir` is not a prefix. -/
def relative_to (file dir : List (List Char)) : Option (List (List Char)) :=
  if dir <+: file then some (file.drop dir.length) else none

def pathStr (parts : List (List Char)) : List Char := joinStr ['/'] parts

/-- `Path.with_suffix(ext)` on a single path component: the final `.`
extension is replaced (or `ext` appended when the name has no dot). -/
def withSuffix (name ext : List Char) : List Char := dropLastExt name ++ ext

/-- Output-path resolution of `write_output_text`: the flat branch falls
back to the basename when `relative_to` fails; the mirror branch lets the
`ValueError` escape. -/
def resolve_out_path (output_format : List Char)
    (input_dir output_dir input_file : List (List Char)) (flat_output : Bool) :
    Except (List Char) (List Char) :=
  if flat_output then
    let rel := match relative_to input_file input_dir with
      | some r => r
      | none => [input_file.getLastD []]
    Except.ok (pathStr (output_dir ++ [make_flat_filename rel output_format]))
  else
    match relative_to input_file input_dir with
    | none => Except.error ("ValueError: not in the subpath".toList)
    | some rel =>
      let ext := if output_format = "txt".toList then ".txt".toList
        else ".md".toList
      let parts := output_dir ++ rel
      Except.ok (pathStr (parts.dropLast ++ [withSuffix (parts.getLastD []) ext]))

def write_output_text (fs : FS) (text output_format : List Char)
    (input_dir output_dir input_file : List (List Char))
    (overwrite flat_output : Bool) : Except (List Char) (FS × List Char) :=
  match resolve_out_path output_format input_dir output_dir input_file flat_output with
  | Except.error e => Except.error e
  | Except.ok out_path =>
    if (fsLookup fs out_path).isSome && !overwrite then
      if out_path ∈ fs.statFails then Except.ok (fs, out_path)
      else
        match fsLookup fs out_path with
        | some content =>
          if content.length > 0 then Except.ok (fs, out_path)
          else fsWriteText fs out_path text
        | none => fsWriteText fs out_path text
    else fsWriteText fs out_path text

/-! ## `run_batch`
(`scraper_cleaner/html_cleaner_core.py`, lines 183–282).  `readFile`
models `Path.read_text` (which may raise OSError) and `extract` models the
external `trafilatura.extract` collaborator, which may return `None`;
`generated_at` is the external clock value.  Writing `manifest.json`
itself is kept as the returned `Manifest` value. -/

structure CleanResult where
  input_path : List Char
  output_path : Option (List Char)
  ok : Bool
  extracted_chars : Nat
  error : Option (List Char)
  deriving DecidableEq

structure Manifest where
  generated_at : List Char
  input_dir : List Char
  output_dir : List Char
  total : Nat
  ok : Nat
  failed : Nat
  results : List CleanResult
  deriving DecidableEq

structure BatchEnv where
  readFile : List (List Char) → Except (List Char) (List Char)
  extract : List Char → List Char → Bool → Bool → Option (List Char)

structure BatchCfg where
  output_format : List Char
  input_dir : List (List Char)
  output_dir : List (List Char)
  overwrite : Bool
  flat_output : Bool
  include_tables : Bool
  include_comments : Bool

/-- `clean_html_file`: read the file, extract via the collaborator, raise
`ValueError` on an empty or absent extraction, then route through the
normalizer according to the output format. -/
def clean_html_file (env : BatchEnv) (input_file : List (List Char))
    (output_format : List Char) (include_tables include_comments : Bool) :
    Except (List Char) (List Char) := do
  let html ← env.readFile input_file
  match env.extract html output_format include_tables include_comments with
  | none =>
    Except.error "Trafilatura could not extract main text (empty result).".toList
  | some extracted =>
    if extracted.isEmpty then
      Except.error "Trafilatura could not extract main text (empty result).".toList
    else if output_format = "txt".toList then pure (normalize_text extracted)
    else if output_format = "markdown".toList then pure (normalize_markdown extracted)
    else pure extracted

/-- The body of `run_batch`'s per-document `try` block: conversion
followed by output writing, producing the new filesystem, the output path
and the cleaned text. -/
def docTry (env : BatchEnv) (cfg : BatchCfg) (fs : FS)
    (html_file : List (List Char)) :
    Except (List Char) (FS × List Char × List Char) := do
  let text ← clean_html_file env html_file cfg.output_format
    cfg.include_tables cfg.include_comments
  let r ← write_output_text fs text cfg.output_format cfg.input_dir
    cfg.output_dir html_file cfg.overwrite cfg.flat_output
  pure (r.1, r.2, text)

/-- One loop iteration of `run_batch`: a success appends a successful
`CleanResult`, any failure appends a failed one and leaves the
filesystem unchanged. -/
def processDoc (env : BatchEnv) (cfg : BatchCfg) (fs : FS)
    (html_file : List (List Char)) : FS × CleanResult :=
  match docTry env cfg fs html_file with
  | Except.ok (fs2, out_path, text) =>
    (fs2, ⟨pathStr html_file, some out_path, true, text.length, none⟩)
  | Except.error e =>
    (fs, ⟨pathStr html_file, none, false, 0, some e⟩)

/-- Process every document of a list in order, threading the filesystem. -/
def processAll (env : BatchEnv) (cfg : BatchCfg) :
    List (List (List Char)) → FS → List CleanResult × FS
  | [], fs => ([], fs)
  | f :: rest, fs =>
    let p := processDoc env cfg fs f
    let q := processAll env cfg rest p.1
    (p.2 :: q.1, q.2)

def limitReached : Option Nat → Nat → Bool
  | some n, c => decide (n ≤ c)
  | none, _ => false

/-- The `for html_file in html_files` loop with its `limit` break. -/
def runLoop (env : BatchEnv) (cfg : BatchCfg) :
    List (List (List Char)) → FS → Nat → Option Nat → List CleanResult × FS
  | [], fs, _, _ => ([], fs)
  | f :: rest, fs, count, limit =>
    if limitReached limit count then ([], fs)
    else
      let p := processDoc env cfg fs f
      let q := runLoop env cfg rest p.1 (count + 1) limit
      (p.2 :: q.1, q.2)

/-- Python string comparison (code-point lexicographic). -/
def strLe : List Char → List Char → Bool
  | [], _ => true
  | _ :: _, [] => false
  | a :: as, b :: bs => if a = b then strLe as bs else decide (a < b)

/-- `Path` ordering: lexicographic on the parts tuple. -/
def partsLe : List (List Char) → List (List Char) → Bool
  | [], _ => true
  | _ :: _, [] => false
  | a :: as, b :: bs => if a = b then partsLe as bs else strLe a b

def insertSorted (f : List (List Char)) :
    List (List (List Char)) → List (List (List Char))
  | [] => [f]
  | g :: rest => if partsLe f g then f :: g :: rest else g :: insertSorted f rest

/-- `sorted(input_files)`. -/
def sortFiles (files : List (List (List Char))) : List (List (List Char)) :=
  files.foldr insertSorted []

def takeLimit : Option Nat → List (List (List Char)) → List (List (List Char))
  | some n, l => l.take n
  | none, l => l

/-- `run_batch` over an explicit file list (`input_files is not None`
branch; the discovery branch sorts `iter_html_files(input_dir)` instead
and is identical downstream).  Fails when the input directory does not
exist; otherwise returns the results together with the manifest value and
the final filesystem. -/
def run_batch (env : BatchEnv) (cfg : BatchCfg) (fs : FS)
    (input_dir_exists : Bool) (limit : Option Nat)
    (input_files : List (List (List Char))) (now : List Char) :
    Except (List Char) (List CleanResult × Manifest × FS) :=
  if !input_dir_exists then
    Except.error ("Input directory does not exist".toList)
  else
    let html_files := sortFiles input_files
    let r := runLoop env cfg html_files fs 0 limit
    let manifest : Manifest :=
      ⟨now, pathStr cfg.input_dir, pathStr cfg.output_dir,
        r.1.length, r.1.countP (fun x => x.ok), r.1.countP (fun x => !x.ok), r.1⟩
    Except.ok (r.1, manifest, r.2)

/-! ## News retrieval (`mcp_server/news_server.py`)
A corpus entry is a filename together with `some content`, or `none` when
reading the file raises (the loop then skips it via `continue`). -/

/-- `string.punctuation` (32 ASCII characters; the quote, backtick and
brace characters are spelled by code point). -/
def pyPunctuation : List Char :=
  ['!', '"', '#', '$', '%', '&', Char.ofNat 39, '(', ')', '*', '+', ',',
   '-', '.', '/', ':', ';', '<', '=', '>', '?', '@', '[', '\\', ']', '^',
   '_', Char.ofNat 96, Char.ofNat 123, '|', Char.ofNat 125, '~']

/-- The fixed stop-word set of `_find_best_article`. -/
def news_stop_words : List (List Char) :=
  ["the".toList, "a".toList, "an".toList, "and".toList, "or".toList,
   "but".toList, "in".toList, "on".toList, "at".toList, "to".toList,
   "for".toList, "of".toList, "with".toList, "is".toList, "are".toList,
   "was".toList, "were".toList, "be".toList, "this".toList, "that".toList,
   "it".toList, "what".toList, "which".toList, "who".toList, "when".toList,
   "where".toList, "why".toList, "how".toList, "latest".toList,
   "news".toList, "question".toList, "from".toList, "by".toList,
   "as".toList]

/-- `str.lower()` (ASCII). -/
def pyLower (s : List Char) : List Char := s.map Char.toLower

/-- `str.split()` with no separator: split on whitespace runs, dropping
empty pieces (`acc` holds the current word, reversed). -/
def pySplitAux : List Char → List Char → List (List Char)
  | [], acc => if acc.isEmpty then [] else [acc.reverse]
  | c :: rest, acc =>
    if isPySpace c then
      if acc.isEmpty then pySplitAux rest []
      else acc.reverse :: pySplitAux rest []
    else pySplitAux rest (c :: acc)

def pySplit (s : List Char) : List (List Char) := pySplitAux s []

/-- `str.count(pat)` — non-overlapping left-to-right occurrence count;
after a match the next `pat.length - 1` positions are skipped (the skip
counter makes the recursion structural). -/
def countOccAux (pat : List Char) : List Char → Nat → Nat
  | [], _ => 0
  | _ :: rest, k + 1 => countOccAux pat rest k
  | c :: rest, 0 =>
    if pat.isPrefixOf (c :: rest) then 1 + countOccAux pat rest (pat.length - 1)
    else countOccAux pat rest 0

def countOcc (pat s : List Char) : Nat :=
  if pat.isEmpty then s.length + 1 else countOccAux pat s 0

/-- Query-term extraction of `_find_best_article`: lowercase, delete
punctuation, split on whitespace, drop stop words; when every token was a
stop word, fall back to the unfiltered token list. -/
def queryTerms (query : List Char) : List (List Char) :=
  let query_clean := (pyLower query).filter (fun c => !pyPunctuation.contains c)
  let terms := (pySplit query_clean).filter
    (fun t => !news_stop_words.contains t)
  if terms.isEmpty then pySplit query_clean else terms

/-- Score of one document: the sum over query terms of the term's
occurrence count in the lowercased content. -/
def docScore (terms : List (List Char)) (content : List Char) : Nat :=
  (terms.map (fun t => countOcc t (pyLower content))).sum

/-- The selection loop of `_find_best_article`: running maximum, replaced
only on a strictly greater score; unreadable files are skipped. -/
def findLoop (terms : List (List Char)) :
    List (List Char × Option (List Char)) → Option (List Char) → Nat →
      Option (List Char)
  | [], best, _ => best
  | (path, contentOpt) :: rest, best, maxSc =>
    match contentOpt with
    | none => findLoop terms rest best maxSc
    | some content =>
      let score := docScore terms content
      if maxSc < score then findLoop terms rest (some path) score
      else findLoop terms rest best maxSc

def find_best_article (corpus : List (List Char × Option (List Char)))
    (query : List Char) : Option (List Char) :=
  findLoop (queryTerms query) corpus none 0

/-- The readable documents of the corpus, paired with their scores. -/
def scoredWith (terms : List (List Char))
    (corpus : List (List Char × Option (List Char))) :
    List (List Char × Nat) :=
  corpus.filterMap
    (fun e => e.2.map (fun content => (e.1, docScore terms content)))

def scoredDocs (corpus : List (List Char × Option (List Char)))
    (query : List Char) : List (List Char × Nat) :=
  scoredWith (queryTerms query) corpus

def maxScore (l : List (List Char × Nat)) : Nat :=
  (l.map (fun e => e.2)).foldr max 0

/-! ## `_ask_news_logic_stream`
(`mcp_server/news_server.py`, lines 182–206).  The generator is embedded
as the finite list of every token it yields, together with the number of
times the completion collaborator (`_query_ollama_stream`) is invoked;
`ollama` maps a prompt to that collaborator's token stream, and `read`
models re-reading the chosen article (`Path.read_text`), which may
raise. -/

def apos : Char := Char.ofNat 39

/-- The terminal message yielded when no relevant article exists. -/
def noRelevantMsg : List Char :=
  "I couldn".toList ++ [apos] ++
    "t find any relevant news articles to answer your question.".toList

/-- The fixed prompt template, with the article name, (possibly
truncated) content and question spliced in. -/
def ask_news_prompt (name content question : List Char) : List Char :=
  "You are a helpful news assistant. Use the provided article to answer the user".toList
    ++ [apos] ++ "s question clearly and concisely.\n        \nArticle Content (".toList
    ++ name ++ "):\n".toList ++ content ++ "\n\nQuestion:\n".toList
    ++ question ++ "\n".toList

structure StreamRun where
  tokens : List (List Char)
  ollamaCalls : Nat
  deriving DecidableEq

def ask_news_logic_stream (ollama : List Char → List (List Char))
    (read : List Char → Except (List Char) (List Char))
    (corpus : List (List Char × Option (List Char)))
    (question : List Char) : StreamRun :=
  match find_best_article corpus question with
  | none => ⟨[noRelevantMsg], 0⟩
  | some article_path =>
    match read article_path with
    | Except.error e => ⟨["Error processing article: ".toList ++ e], 0⟩
    | Except.ok content =>
      let content2 := if 10000 < content.length then
        content.take 10000 ++ "...(truncated)".toList else content
      ⟨ollama (ask_news_prompt article_path content2 question), 1⟩

/-! ## Theorems -/

/-! ## Lemmas about `lstrip`, `rstrip`, `strip` -/

theorem lstrip_isSuffix (s : List Char) : lstrip s <:+ s :=
  List.dropWhile_suffix isPySpace

theorem lstrip_head?_not_space (s : List Char) {c : Char}
    (h : (lstrip s).head? = some c) : isPySpace c = false := by
  have := List.head?_dropWhile_not isPySpace s
  rw [lstrip] at h
  rw [h] at this
  exact this

theorem lstrip_eq_self_of_head? {s : List Char}
    (h : ∀ c, s.head? = some c → isPySpace c = false) : lstrip s = s := by
  cases s with
  | nil => rfl
  | cons c t =>
    have hc : isPySpace c = false := h c rfl
    simp [lstrip, List.dropWhile_cons, hc]

theorem lstrip_append_of_ne {a : List Char} (h : lstrip a ≠ []) (z : List Char) :
    lstrip (a ++ z) = lstrip a ++ z := by
  simp only [lstrip] at h ⊢
  rw [List.dropWhile_append]
  simp only [List.isEmpty_iff]
  rw [if_neg h]

theorem lstrip_all_space {s : List Char} (h : ∀ c ∈ s, isPySpace c = true) :
    lstrip s = [] := by
  rw [lstrip, List.dropWhile_eq_nil_iff]
  exact fun c hc => h c hc

theorem exists_space_takeWhile (s : List Char) :
    ∃ w, (∀ c ∈ w, isPySpace c = true) ∧ s = w ++ lstrip s := by
  refine ⟨s.takeWhile isPySpace, ?_, (List.takeWhile_append_dropWhile isPySpace s).symm⟩
  exact fun c hc => List.mem_takeWhile_imp hc

theorem rstrip_isPre (s : List Char) : rstrip s <+: s := by
  rw [rstrip]
  apply List.reverse_suffix.mp
  rw [List.reverse_reverse]
  exact List.dropWhile_suffix isPySpace

theorem rstrip_getLast?_not_space (s : List Char) {c : Char}
    (h : (rstrip s).getLast? = some c) : isPySpace c = false := by
  have hrev : (s.reverse.dropWhile isPySpace).head? = some c := by
    rw [rstrip] at h
    rwa [List.getLast?_reverse] at h
  have := List.head?_dropWhile_not isPySpace s.reverse
  rw [hrev] at this
  exact this

theorem rstrip_eq_self_of_getLast? {s : List Char}
    (h : ∀ c, s.getLast? = some c → isPySpace c = false) : rstrip s = s := by
  have hrev : lstrip s.reverse = s.reverse := by
    apply lstrip_eq_self_of_head?
    intro c hc
    exact h c (by rwa [List.head?_reverse] at hc)
  rw [rstrip]
  rw [show s.reverse.dropWhile isPySpace = s.reverse from hrev, List.reverse_reverse]

theorem rstrip_append_of_ne {z : List Char} (h : rstrip z ≠ []) (a : List Char) :
    rstrip (a ++ z) = a ++ rstrip z := by
  have hz : z.reverse.dropWhile isPySpace ≠ [] := by
    intro hnil
    apply h
    rw [rstrip, hnil, List.reverse_nil]
  rw [rstrip, List.reverse_append, List.dropWhile_append]
  simp only [List.isEmpty_iff]
  rw [if_neg hz, List.reverse_append, List.reverse_reverse]
  rfl

theorem rstrip_append_spaces {z : List Char} (h : ∀ c ∈ z, isPySpace c = true)
    (a : List Char) : rstrip (a ++ z) = rstrip a := by
  rw [rstrip, List.reverse_append, List.dropWhile_append_of_pos]
  · rfl
  · intro c hc
    exact h c (List.mem_reverse.mp hc)

theorem rstrip_all_space {s : List Char} (h : ∀ c ∈ s, isPySpace c = true) :
    rstrip s = [] := by
  rw [rstrip, List.dropWhile_eq_nil_iff.mpr, List.reverse_nil]
  intro c hc
  exact h c (List.mem_reverse.mp hc)

theorem exists_space_dropLast (s : List Char) :
    ∃ w, (∀ c ∈ w, isPySpace c = true) ∧ s = rstrip s ++ w := by
  refine ⟨(s.reverse.takeWhile isPySpace).reverse, ?_, ?_⟩
  · intro c hc
    exact List.mem_takeWhile_imp (List.mem_reverse.mp hc)
  · rw [rstrip, ← List.reverse_append, List.takeWhile_append_dropWhile, List.reverse_reverse]

theorem rstrip_idem (s : List Char) : rstrip (rstrip s) = rstrip s :=
  rstrip_eq_self_of_getLast? (fun _ hc => rstrip_getLast?_not_space s hc)

theorem head?_of_isPre {α : Type} {x l : List α} (h : x <+: l) (hx : x ≠ []) :
    l.head? = x.head? := by
  obtain ⟨r, hr⟩ := h
  cases x with
  | nil => exact absurd rfl hx
  | cons c t => rw [← hr]; rfl

theorem getLast?_of_isSuf {α : Type} {x l : List α} (h : x <:+ l) (hx : x ≠ []) :
    l.getLast? = x.getLast? := by
  obtain ⟨r, hr⟩ := h
  rw [← hr, List.getLast?_append]
  cases hx2 : x.getLast? with
  | none => exact absurd (List.getLast?_eq_none_iff.mp hx2) hx
  | some c => rfl

theorem lstrip_idem (s : List Char) : lstrip (lstrip s) = lstrip s :=
  lstrip_eq_self_of_head? (fun _ hc => lstrip_head?_not_space s hc)

theorem lstrip_ne_of_strip_ne {s : List Char} (h : strip s ≠ []) : lstrip s ≠ [] := by
  intro hnil
  rw [strip, hnil] at h
  exact h rfl

theorem strip_head?_not_space (s : List Char) {c : Char}
    (h : (strip s).head? = some c) : isPySpace c = false := by
  have hne : strip s ≠ [] := by
    intro hnil
    rw [hnil] at h
    exact Option.noConfusion h
  have heq : (lstrip s).head? = (strip s).head? :=
    head?_of_isPre (rstrip_isPre (lstrip s)) hne
  exact lstrip_head?_not_space s (heq.trans h)

theorem strip_getLast?_not_space (s : List Char) {c : Char}
    (h : (strip s).getLast? = some c) : isPySpace c = false :=
  rstrip_getLast?_not_space (lstrip s) h

theorem strip_all_space {s : List Char} (h : ∀ c ∈ s, isPySpace c = true) :
    strip s = [] := by
  rw [strip, lstrip_all_space h, rstrip]
  rfl

theorem strip_subset (s : List Char) : ∀ c ∈ strip s, c ∈ s := by
  intro c hc
  exact (lstrip_isSuffix s).subset ((rstrip_isPre (lstrip s)).subset hc)

/-! ## Lemmas about `splitNl`, `joinNl`, `crlfToLf` -/

theorem splitNl_ne_nil (s : List Char) : splitNl s ≠ [] := by
  cases s with
  | nil => simp [splitNl]
  | cons c rest =>
    rw [splitNl]
    by_cases hc : c = '\n'
    · simp [hc]
    · rw [if_neg hc]
      cases splitNl rest <;> simp

theorem mem_splitNl_no_nl (s : List Char) : ∀ l ∈ splitNl s, '\n' ∉ l := by
  induction s with
  | nil => simp [splitNl]
  | cons c rest ih =>
    intro l hl
    rw [splitNl] at hl
    by_cases hc : c = '\n'
    · rw [if_pos hc, List.mem_cons] at hl
      rcases hl with hl | hl
      · simp [hl]
      · exact ih l hl
    · rw [if_neg hc] at hl
      rcases hsp : splitNl rest with _ | ⟨l0, ls⟩
      · exact absurd hsp (splitNl_ne_nil rest)
      · rw [hsp, List.mem_cons] at hl
        rcases hl with hl | hl
        · subst hl
          intro hmem
          rw [List.mem_cons] at hmem
          rcases hmem with hmem | hmem
          · exact hc hmem.symm
          · exact ih l0 (by rw [hsp]; exact List.mem_cons_self l0 ls) hmem
        · exact ih l (by rw [hsp]; exact List.mem_cons_of_mem l0 hl)

theorem mem_splitNl_subset (s : List Char) :
    ∀ l ∈ splitNl s, ∀ c ∈ l, c ∈ s := by
  induction s with
  | nil => simp [splitNl]
  | cons a rest ih =>
    intro l hl c hc
    rw [splitNl] at hl
    by_cases ha : a = '\n'
    · rw [if_pos ha, List.mem_cons] at hl
      rcases hl with hl | hl
      · simp [hl] at hc
      · exact List.mem_cons_of_mem a (ih l hl c hc)
    · rw [if_neg ha] at hl
      rcases hsp : splitNl rest with _ | ⟨l0, ls⟩
      · exact absurd hsp (splitNl_ne_nil rest)
      · rw [hsp, List.mem_cons] at hl
        rcases hl with hl | hl
        · subst hl
          rw [List.mem_cons] at hc
          rcases hc with hc | hc
          · rw [hc]
            exact List.mem_cons_self a rest
          · exact List.mem_cons_of_mem a
              (ih l0 (by rw [hsp]; exact List.mem_cons_self l0 ls) c hc)
        · exact List.mem_cons_of_mem a
            (ih l (by rw [hsp]; exact List.mem_cons_of_mem l0 hl) c hc)

theorem splitNl_of_no_nl {s : List Char} (h : '\n' ∉ s) : splitNl s = [s] := by
  induction s with
  | nil => rfl
  | cons c rest ih =>
    rw [splitNl]
    have hc : c ≠ '\n' := fun hcc => h (by simp [hcc])
    rw [if_neg hc, ih (fun hm => h (List.mem_cons_of_mem c hm))]

theorem splitNl_append_no_nl {a : List Char} (h : '\n' ∉ a) (z : List Char) :
    splitNl (a ++ z) =
      (a ++ (splitNl z).headI) :: (splitNl z).tail := by
  induction a with
  | nil =>
    simp only [List.nil_append]
    rcases hsp : splitNl z with _ | ⟨l0, ls⟩
    · exact absurd hsp (splitNl_ne_nil z)
    · rfl
  | cons c rest ih =>
    have hc : c ≠ '\n' := fun hcc => h (by simp [hcc])
    have hrest : '\n' ∉ rest := fun hm => h (List.mem_cons_of_mem c hm)
    rw [List.cons_append, splitNl, if_neg hc, ih hrest]
    rfl

theorem splitNl_cons_nl (z : List Char) : splitNl ('\n' :: z) = [] :: splitNl z := by
  rw [splitNl, if_pos rfl]

theorem joinNl_cons {a : List Char} {rest : List (List Char)} (h : rest ≠ []) :
    joinNl (a :: rest) = a ++ '\n' :: joinNl rest := by
  cases rest with
  | nil => exact absurd rfl h
  | cons b rs => rfl

theorem splitNl_joinNl {M : List (List Char)} (hM : M ≠ [])
    (hfree : ∀ l ∈ M, '\n' ∉ l) : splitNl (joinNl M) = M := by
  induction M with
  | nil => exact absurd rfl hM
  | cons a rest ih =>
    cases rest with
    | nil =>
      rw [joinNl, splitNl_of_no_nl (hfree a (List.mem_cons_self a []))]
    | cons b rs =>
      rw [joinNl_cons (by simp)]
      rw [splitNl_append_no_nl (hfree a (List.mem_cons_self a (b :: rs)))]
      rw [splitNl_cons_nl]
      rw [ih (by simp) (fun l hl => hfree l (List.mem_cons_of_mem a hl))]
      simp

theorem splitNl_append_last_nl (b : List Char) :
    splitNl (b ++ ['\n']) = splitNl b ++ [[]] := by
  induction b with
  | nil => rfl
  | cons c rest ih =>
    by_cases hc : c = '\n'
    · subst hc
      rw [List.cons_append, splitNl_cons_nl, ih, splitNl_cons_nl]
      rfl
    · rw [List.cons_append, splitNl, if_neg hc, ih, splitNl, if_neg hc]
      rcases hsp : splitNl rest with _ | ⟨l0, ls⟩
      · exact absurd hsp (splitNl_ne_nil rest)
      · rfl

theorem joinNl_append_last_nil {X : List (List Char)} (h : X ≠ []) :
    joinNl (X ++ [[]]) = joinNl X ++ ['\n'] := by
  induction X with
  | nil => exact absurd rfl h
  | cons a rest ih =>
    cases rest with
    | nil => rfl
    | cons b rs =>
      rw [List.cons_append, joinNl_cons (by simp : (b :: rs) ++ [[]] ≠ []),
        ih (by simp), joinNl_cons (by simp : (b : List Char) :: rs ≠ [])]
      simp

theorem mem_joinNl {M : List (List Char)} {c : Char} (h : c ∈ joinNl M) :
    c = '\n' ∨ ∃ l ∈ M, c ∈ l := by
  induction M with
  | nil => simp [joinNl] at h
  | cons a rest ih =>
    cases rest with
    | nil =>
      right
      exact ⟨a, List.mem_cons_self a [], h⟩
    | cons b rs =>
      rw [joinNl_cons (by simp : (b : List Char) :: rs ≠ [])] at h
      rcases List.mem_append.mp h with h | h
      · right
        exact ⟨a, List.mem_cons_self a (b :: rs), h⟩
      · rw [List.mem_cons] at h
        rcases h with h | h
        · left; exact h
        · rcases ih h with h | ⟨l, hl, hc⟩
          · left; exact h
          · right; exact ⟨l, List.mem_cons_of_mem a hl, hc⟩

theorem crlfToLf_no_cr : ∀ s : List Char, '\r' ∉ crlfToLf s
  | [] => by simp [crlfToLf]
  | [c] => by
    rw [crlfToLf]
    by_cases hc : c = '\r'
    · simp [hc]
    · simp only [if_neg hc, List.mem_singleton]
      exact Ne.symm hc
  | c :: d :: rest => by
    have ih1 := crlfToLf_no_cr rest
    have ih2 := crlfToLf_no_cr (d :: rest)
    rw [crlfToLf]
    by_cases hc : c = '\r'
    · by_cases hd : d = '\n'
      · rw [if_pos hc, if_pos hd]
        simp [List.mem_cons, ih1]
      · rw [if_pos hc, if_neg hd]
        simp [List.mem_cons, ih2]
    · rw [if_neg hc]
      simp only [List.mem_cons, ih2, or_false]
      exact Ne.symm hc

theorem leadE_cons_ne {a : List Char} (ha : a ≠ []) (X : List (List Char)) :
    leadE (a :: X) = 0 := by
  cases a with
  | nil => exact absurd rfl ha
  | cons c t => rfl

theorem noTripleBlank_tail : ∀ {a : List Char} {X : List (List Char)},
    noTripleBlank (a :: X) → noTripleBlank X
  | _, [], _ => trivial
  | _, [_], _ => trivial
  | _, _ :: _ :: _, h => h.2

theorem noTripleBlank_cons_ne : ∀ {a : List Char} {X : List (List Char)},
    a ≠ [] → noTripleBlank X → noTripleBlank (a :: X)
  | _, [], _, _ => trivial
  | _, [_], _, _ => trivial
  | _, _ :: _ :: _, ha, h => ⟨fun hw => ha hw.1, h⟩

theorem noTripleBlank_cons_nil : ∀ {X : List (List Char)},
    noTripleBlank X → leadE X ≤ 1 → noTripleBlank ([] :: X)
  | [], _, _ => trivial
  | [_], _, _ => trivial
  | _ :: _ :: _, h, hle =>
    ⟨fun hw => by
      rw [hw.2.1, hw.2.2] at hle
      simp only [leadE] at hle
      omega, h⟩

theorem leadE_le_one_of_cons_nil : ∀ {X : List (List Char)},
    noTripleBlank ([] :: X) → leadE X ≤ 1
  | [], _ => by simp [leadE]
  | [b], _ => by
    by_cases hb : b = []
    · subst hb
      simp [leadE]
    · rw [leadE_cons_ne hb]
      exact Nat.zero_le 1
  | b :: c :: rest, h => by
    by_cases hb : b = []
    · subst hb
      by_cases hc : c = []
      · exact absurd ⟨rfl, rfl, hc⟩ h.1
      · rw [leadE, leadE_cons_ne hc]
    · rw [leadE_cons_ne hb]
      exact Nat.zero_le 1

theorem leadE_le_two_of_noTriple {X : List (List Char)}
    (h : noTripleBlank X) : leadE X ≤ 2 := by
  cases X with
  | nil => exact Nat.zero_le 2
  | cons a X2 =>
    by_cases ha : a = []
    · subst ha
      rw [leadE]
      exact Nat.add_le_add_right (leadE_le_one_of_cons_nil h) 1
    · rw [leadE_cons_ne ha]
      exact Nat.zero_le 2

theorem noTripleBlank_append_left : ∀ {X : List (List Char)}
    {Y : List (List Char)}, noTripleBlank (X ++ Y) → noTripleBlank X
  | [], _, _ => trivial
  | [_], _, _ => trivial
  | [_, _], _, _ => trivial
  | a :: b :: c :: X', Y, h => by
    simp only [List.cons_append] at h
    exact ⟨h.1, noTripleBlank_append_left (X := b :: c :: X') (Y := Y)
      (by simp only [List.cons_append]; exact h.2)⟩

theorem noTripleBlank_append_nil : ∀ {M : List (List Char)},
    noTripleBlank M → (∀ e, M.getLast? = some e → e ≠ []) →
    noTripleBlank (M ++ [[]])
  | [], _, _ => trivial
  | [_], _, _ => trivial
  | [x, y], _, hlast => ⟨fun hw => hlast y (by simp) hw.2.1, trivial⟩
  | x :: y :: z :: M', h, hlast => by
    have hrec : noTripleBlank ((y :: z :: M') ++ [[]]) :=
      noTripleBlank_append_nil h.2
        (fun e he => hlast e (by rw [List.getLast?_cons_cons]; exact he))
    simp only [List.cons_append] at hrec ⊢
    exact ⟨h.1, hrec⟩

theorem collapseBlanks_mem {lines : List (List Char)} :
    ∀ {r : Nat}, ∀ l ∈ collapseBlanks lines r,
      l = [] ∨ (l ∈ lines ∧ strip l ≠ []) := by
  induction lines with
  | nil => intro r l hl; simp [collapseBlanks] at hl
  | cons ln rest ih =>
    intro r l hl
    rw [collapseBlanks] at hl
    by_cases hb : (strip ln).isEmpty
    · rw [if_pos hb] at hl
      by_cases hr : r + 1 ≤ 2
      · rw [if_pos hr, List.mem_cons] at hl
        rcases hl with hl | hl
        · left; exact hl
        · rcases ih l hl with hl2 | ⟨hl2, hl3⟩
          · left; exact hl2
          · right; exact ⟨List.mem_cons_of_mem ln hl2, hl3⟩
      · rw [if_neg hr] at hl
        rcases ih l hl with hl2 | ⟨hl2, hl3⟩
        · left; exact hl2
        · right; exact ⟨List.mem_cons_of_mem ln hl2, hl3⟩
    · rw [if_neg hb, List.mem_cons] at hl
      rcases hl with hl | hl
      · right
        refine ⟨by rw [hl]; exact List.mem_cons_self ln rest, ?_⟩
        rw [hl]
        exact fun hnil => hb (by rw [hnil]; rfl)
      · rcases ih l hl with hl2 | ⟨hl2, hl3⟩
        · left; exact hl2
        · right; exact ⟨List.mem_cons_of_mem ln hl2, hl3⟩

theorem collapseBlanks_leadE (lines : List (List Char)) :
    ∀ r, leadE (collapseBlanks lines r) ≤ 2 - r := by
  induction lines with
  | nil => intro r; simp [collapseBlanks, leadE]
  | cons ln rest ih =>
    intro r
    rw [collapseBlanks]
    by_cases hb : (strip ln).isEmpty
    · rw [if_pos hb]
      by_cases hr : r + 1 ≤ 2
      · rw [if_pos hr, leadE]
        have := ih (r + 1)
        omega
      · rw [if_neg hr]
        have := ih (r + 1)
        omega
    · rw [if_neg hb]
      have hne : ln ≠ [] := fun hnil => hb (by rw [hnil]; rfl)
      rw [leadE_cons_ne hne]
      exact Nat.zero_le _

theorem collapseBlanks_noTriple (lines : List (List Char)) :
    ∀ r, noTripleBlank (collapseBlanks lines r) := by
  induction lines with
  | nil => intro r; trivial
  | cons ln rest ih =>
    intro r
    rw [collapseBlanks]
    by_cases hb : (strip ln).isEmpty
    · rw [if_pos hb]
      by_cases hr : r + 1 ≤ 2
      · rw [if_pos hr]
        refine noTripleBlank_cons_nil (ih (r + 1)) ?_
        have := collapseBlanks_leadE rest (r + 1)
        omega
      · rw [if_neg hr]
        exact ih (r + 1)
    · rw [if_neg hb]
      exact noTripleBlank_cons_ne (fun hnil => hb (by rw [hnil]; rfl)) (ih 0)

theorem dropTailBlank_isPre (L : List (List Char)) : dropTailBlank L <+: L := by
  rw [dropTailBlank]
  apply List.reverse_suffix.mp
  rw [List.reverse_reverse]
  exact List.dropWhile_suffix _

theorem dropTailBlank_eq_nil_iff {L : List (List Char)} :
    dropTailBlank L = [] ↔ ∀ l ∈ L, l = [] := by
  rw [dropTailBlank]
  constructor
  · intro h l hl
    have h2 : L.reverse.dropWhile (fun l => l.isEmpty) = [] := by
      have := congrArg List.reverse h
      rwa [List.reverse_reverse, List.reverse_nil] at this
    have := List.dropWhile_eq_nil_iff.mp h2 l (List.mem_reverse.mpr hl)
    exact List.isEmpty_iff.mp this
  · intro h
    rw [List.dropWhile_eq_nil_iff.mpr, List.reverse_nil]
    intro l hl
    exact List.isEmpty_iff.mpr (h l (List.mem_reverse.mp hl))

theorem dropTailBlank_cons_of_ne {L : List (List Char)}
    (h : dropTailBlank L ≠ []) (l : List Char) :
    dropTailBlank (l :: L) = l :: dropTailBlank L := by
  have hne : L.reverse.dropWhile (fun x => x.isEmpty) ≠ [] := by
    intro hnil
    apply h
    rw [dropTailBlank, hnil, List.reverse_nil]
  rw [dropTailBlank, List.reverse_cons, List.dropWhile_append]
  simp only [List.isEmpty_iff]
  rw [if_neg hne, List.reverse_append]
  simp [dropTailBlank]

theorem dropTailBlank_getLast?_ne {L : List (List Char)} {e : List Char}
    (h : (dropTailBlank L).getLast? = some e) : e ≠ [] := by
  have hrev : (L.reverse.dropWhile (fun x => x.isEmpty)).head? = some e := by
    rw [dropTailBlank] at h
    rwa [List.getLast?_reverse] at h
  have := List.head?_dropWhile_not (fun (x : List Char) => x.isEmpty) L.reverse
  rw [hrev] at this
  exact fun hnil => by
    rw [hnil] at this
    simp at this

theorem exists_blank_dropLast (L : List (List Char)) :
    ∃ E, (∀ l ∈ E, l = []) ∧ L = dropTailBlank L ++ E := by
  refine ⟨(L.reverse.takeWhile (fun x => x.isEmpty)).reverse, ?_, ?_⟩
  · intro l hl
    exact List.isEmpty_iff.mp
      (List.mem_takeWhile_imp (List.mem_reverse.mp hl))
  · rw [dropTailBlank, ← List.reverse_append, List.takeWhile_append_dropWhile,
      List.reverse_reverse]

theorem joinNl_eq_nil : ∀ {X : List (List Char)},
    joinNl X = [] → X = [] ∨ X = [[]]
  | [], _ => Or.inl rfl
  | [l], h => Or.inr (by rw [show joinNl [l] = l from rfl] at h; rw [h])
  | l :: b :: rs, h => by
    rw [joinNl_cons (by simp : (b : List Char) :: rs ≠ [])] at h
    exact absurd h (by simp)

theorem joinNl_cons_ne_nil {a : List Char} (ha : a ≠ []) (rest : List (List Char)) :
    joinNl (a :: rest) ≠ [] := by
  cases rest with
  | nil => exact ha
  | cons b rs =>
    rw [joinNl_cons (by simp : (b : List Char) :: rs ≠ [])]
    cases a with
    | nil => exact absurd rfl ha
    | cons c t => simp

theorem head?_joinNl {a : List Char} (ha : a ≠ []) (rest : List (List Char)) :
    (joinNl (a :: rest)).head? = a.head? := by
  cases rest with
  | nil => rfl
  | cons b rs =>
    rw [joinNl_cons (by simp : (b : List Char) :: rs ≠ []), List.head?_append]
    cases a with
    | nil => exact absurd rfl ha
    | cons c t => rfl

theorem joinNl_all_space {L : List (List Char)} (h : ∀ l ∈ L, l = []) :
    ∀ c ∈ joinNl L, isPySpace c = true := by
  intro c hc
  rcases mem_joinNl hc with hc | ⟨l, hl, hcl⟩
  · rw [hc]; rfl
  · rw [h l hl] at hcl
    simp at hcl

theorem getLast?_joinNl : ∀ {M : List (List Char)} {e : List Char},
    M.getLast? = some e → e ≠ [] → (joinNl M).getLast? = e.getLast?
  | [], e, h, _ => by simp at h
  | [m], e, h, he => by
    have hm : m = e := by simpa using h
    subst hm
    rfl
  | m :: b :: rs, e, h, he => by
    rw [List.getLast?_cons_cons] at h
    have ih := getLast?_joinNl (M := b :: rs) h he
    obtain ⟨c, hc⟩ : ∃ c, e.getLast? = some c := by
      cases hce : e.getLast? with
      | none => exact absurd (List.getLast?_eq_none_iff.mp hce) he
      | some c => exact ⟨c, rfl⟩
    rw [joinNl_cons (by simp : (b : List Char) :: rs ≠ []), List.getLast?_append]
    rw [List.getLast?_cons, ih, hc]
    rfl

theorem rstrip_joinNl : ∀ {L : List (List Char)},
    (∀ l ∈ L, rstrip l = l) → rstrip (joinNl L) = joinNl (dropTailBlank L)
  | [], _ => rfl
  | [l], h => by
    have hl : rstrip l = l := h l (List.mem_cons_self l [])
    cases hle : l.isEmpty with
    | true =>
      have : l = [] := List.isEmpty_iff.mp hle
      subst this
      rfl
    | false =>
      have : dropTailBlank [l] = [l] := by
        rw [dropTailBlank]
        simp [List.dropWhile_cons, hle]
      rw [this]
      exact hl
  | l :: b :: rs, h => by
    have htail : ∀ x ∈ b :: rs, rstrip x = x :=
      fun x hx => h x (List.mem_cons_of_mem l hx)
    have ih := rstrip_joinNl htail
    rw [joinNl_cons (by simp : (b : List Char) :: rs ≠ [])]
    by_cases hall : dropTailBlank (b :: rs) = []
    · have hblank : ∀ x ∈ b :: rs, x = [] := dropTailBlank_eq_nil_iff.mp hall
      have hspaces : ∀ c ∈ '\n' :: joinNl (b :: rs), isPySpace c = true := by
        intro c hc
        rw [List.mem_cons] at hc
        rcases hc with hc | hc
        · rw [hc]; rfl
        · exact joinNl_all_space hblank c hc
      have h1 : rstrip (l ++ '\n' :: joinNl (b :: rs)) = rstrip l :=
        rstrip_append_spaces hspaces l
      have h2 : dropTailBlank (l :: b :: rs) =
          if l.isEmpty then [] else [l] := by
        rw [dropTailBlank, List.reverse_cons, List.dropWhile_append]
        have : (b :: rs).reverse.dropWhile (fun x => x.isEmpty) = [] := by
          rw [List.dropWhile_eq_nil_iff]
          intro x hx
          exact List.isEmpty_iff.mpr (hblank x (List.mem_reverse.mp hx))
        rw [this]
        cases hle : l.isEmpty with
        | true =>
          have : l = [] := List.isEmpty_iff.mp hle
          subst this
          simp
        | false => simp [List.dropWhile_cons, hle]
      rw [h1, h2]
      cases hle : l.isEmpty with
      | true =>
        have : l = [] := List.isEmpty_iff.mp hle
        subst this
        simp [joinNl, rstrip]
      | false =>
        rw [show (if false = true then ([] : List (List Char)) else [l]) = [l] by simp,
          show joinNl [l] = l from rfl]
        exact h l (List.mem_cons_self l (b :: rs))
    · have hjne : joinNl (dropTailBlank (b :: rs)) ≠ [] := by
        intro hnil
        rcases joinNl_eq_nil hnil with hdt | hdt
        · exact hall hdt
        · have : ([] : List Char) ≠ [] :=
            dropTailBlank_getLast?_ne (L := b :: rs) (by rw [hdt]; rfl)
          exact this rfl
      have hrz : rstrip (joinNl (b :: rs)) ≠ [] := by
        rw [ih]
        exact hjne
      have hassoc : l ++ '\n' :: joinNl (b :: rs) =
          (l ++ ['\n']) ++ joinNl (b :: rs) := by
        rw [List.append_assoc]
        rfl
      rw [hassoc, rstrip_append_of_ne hrz, ih,
        dropTailBlank_cons_of_ne hall,
        joinNl_cons hall, List.append_assoc]
      rfl

theorem lstrip_joinNl_drop : ∀ {L : List (List Char)} {a : List Char}
    {rest : List (List Char)}, dropLeadBlank L = a :: rest → strip a ≠ [] →
    lstrip (joinNl L) = joinNl (lstrip a :: rest)
  | [], a, rest, hd, _ => by simp [dropLeadBlank] at hd
  | l :: L', a, rest, hd, hsa => by
    rw [dropLeadBlank, List.dropWhile_cons] at hd
    cases hle : l.isEmpty with
    | true =>
      rw [if_pos (by rw [hle])] at hd
      have hl : l = [] := List.isEmpty_iff.mp hle
      subst hl
      have hL' : L' ≠ [] := by
        intro hnil
        rw [hnil] at hd
        exact List.noConfusion hd
      rw [joinNl_cons hL', List.nil_append]
      have : lstrip ('\n' :: joinNl L') = lstrip (joinNl L') := by
        simp only [lstrip, List.dropWhile_cons]
        rw [if_pos (show isPySpace '\n' = true from rfl)]
      rw [this]
      exact lstrip_joinNl_drop hd hsa
    | false =>
      rw [if_neg (by rw [hle]; exact Bool.false_ne_true)] at hd
      injection hd with h1 h2
      subst h1
      subst h2
      have hlne : lstrip l ≠ [] := lstrip_ne_of_strip_ne hsa
      cases L' with
      | nil => rfl
      | cons b rs =>
        rw [joinNl_cons (by simp : (b : List Char) :: rs ≠ []),
          lstrip_append_of_ne hlne,
          joinNl_cons (by simp : (b : List Char) :: rs ≠ [])]

theorem collapseBlanks_id : ∀ {N : List (List Char)} {r : Nat},
    (∀ l ∈ N, l = [] ∨ strip l ≠ []) → noTripleBlank N → leadE N + r ≤ 2 →
    collapseBlanks N r = N
  | [], _, _, _, _ => rfl
  | l :: N', r, helem, htriple, hlead => by
    rcases helem l (List.mem_cons_self l N') with hl | hl
    · subst hl
      rw [collapseBlanks]
      rw [if_pos (by rw [strip_all_space (by intro c hc; simp at hc)]; rfl)]
      rw [leadE] at hlead
      rw [if_pos (by omega)]
      rw [collapseBlanks_id (fun x hx => helem x (List.mem_cons_of_mem [] hx))
        (noTripleBlank_tail htriple) (by omega)]
    · rw [collapseBlanks]
      rw [if_neg (by rw [List.isEmpty_iff]; exact hl)]
      rw [collapseBlanks_id (fun x hx => helem x (List.mem_cons_of_mem l hx))
        (noTripleBlank_tail htriple)
        (by
          have := leadE_le_two_of_noTriple (noTripleBlank_tail htriple)
          omega)]

theorem noTripleBlank_dropWhile (p : List Char → Bool) :
    ∀ {L : List (List Char)}, noTripleBlank L →
      noTripleBlank (L.dropWhile p)
  | [], _ => trivial
  | l :: L', h => by
    rw [List.dropWhile_cons]
    by_cases hp : p l = true
    · rw [if_pos hp]
      exact noTripleBlank_dropWhile p (noTripleBlank_tail h)
    · rw [if_neg hp]
      exact h

theorem crlfToLf_of_no_cr : ∀ {s : List Char}, '\r' ∉ s → crlfToLf s = s
  | [], _ => rfl
  | [c], h => by
    have hc : c ≠ '\r' := fun hcc => h (by simp [hcc])
    rw [crlfToLf, if_neg hc]
  | c :: d :: rest, h => by
    have hc : c ≠ '\r' := fun hcc => h (by simp [hcc])
    have htail : '\r' ∉ d :: rest := fun hm => h (List.mem_cons_of_mem c hm)
    rw [crlfToLf, if_neg hc, crlfToLf_of_no_cr htail]

/-! ## Structure of `normalize_text` output -/

theorem normalize_text_struct (x : List Char) :
    ∃ M, NormLines M ∧ normalize_text x = joinNl M ++ ['\n'] := by
  have hshow : normalize_text x =
      strip (joinNl (collapseBlanks ((splitNl (crlfToLf x)).map rstrip) 0))
        ++ ['\n'] := rfl
  set L := collapseBlanks ((splitNl (crlfToLf x)).map rstrip) 0 with hLdef
  have hlines : ∀ l ∈ (splitNl (crlfToLf x)).map rstrip,
      ('\n' ∉ l) ∧ ('\r' ∉ l) ∧ rstrip l = l := by
    intro l hl
    rcases List.mem_map.mp hl with ⟨l0, hl0, hrl⟩
    subst hrl
    refine ⟨?_, ?_, rstrip_idem l0⟩
    · intro hmem
      exact mem_splitNl_no_nl (crlfToLf x) l0 hl0 ((rstrip_isPre l0).subset hmem)
    · intro hmem
      exact crlfToLf_no_cr x
        (mem_splitNl_subset (crlfToLf x) l0 hl0 _ ((rstrip_isPre l0).subset hmem))
  have hElem : ∀ l ∈ L, l = [] ∨
      (l ∈ (splitNl (crlfToLf x)).map rstrip ∧ strip l ≠ []) :=
    fun l hl => collapseBlanks_mem l hl
  have hNoNl : ∀ l ∈ L, '\n' ∉ l := by
    intro l hl
    rcases hElem l hl with h | ⟨h1, _⟩
    · rw [h]; simp
    · exact (hlines l h1).1
  have hNoCr : ∀ l ∈ L, '\r' ∉ l := by
    intro l hl
    rcases hElem l hl with h | ⟨h1, _⟩
    · rw [h]; simp
    · exact (hlines l h1).2.1
  have hRfix : ∀ l ∈ L, rstrip l = l := by
    intro l hl
    rcases hElem l hl with h | ⟨h1, _⟩
    · rw [h]; rfl
    · exact (hlines l h1).2.2
  have hBlank : ∀ l ∈ L, l = [] ∨ strip l ≠ [] := by
    intro l hl
    rcases hElem l hl with h | ⟨_, h2⟩
    · exact Or.inl h
    · exact Or.inr h2
  have hTriple : noTripleBlank L := collapseBlanks_noTriple _ 0
  rcases hdl : dropLeadBlank L with _ | ⟨a, rest⟩
  · -- every line is blank: the whole document strips to nothing
    have hall : ∀ l ∈ L, l = [] := by
      intro l hl
      exact List.isEmpty_iff.mp (List.dropWhile_eq_nil_iff.mp hdl l hl)
    refine ⟨[], ⟨by simp, by simp, by simp, by simp, trivial,
      fun a rest h => List.noConfusion h,
      fun e he => by simp at he⟩, ?_⟩
    rw [hshow, strip_all_space (joinNl_all_space hall)]
    rfl
  · have hdl2 : L.dropWhile (fun l => l.isEmpty) = a :: rest := hdl
    have hmemL : ∀ y ∈ a :: rest, y ∈ L := by
      intro y hy
      refine (List.dropWhile_suffix (fun l => l.isEmpty)).subset ?_
      rw [hdl2]
      exact hy
    have haL : a ∈ L := hmemL a (List.mem_cons_self a rest)
    have haEmpty : a.isEmpty = false := by
      have h0 := List.head?_dropWhile_not (fun (l : List Char) => l.isEmpty) L
      rw [hdl2] at h0
      exact h0
    have haNe : a ≠ [] := by
      intro h
      rw [h] at haEmpty
      simp at haEmpty
    have hsa : strip a ≠ [] := by
      rcases hBlank a haL with h | h
      · exact absurd h haNe
      · exact h
    have hstep1 : lstrip (joinNl L) = joinNl (lstrip a :: rest) :=
      lstrip_joinNl_drop hdl hsa
    have hlne : lstrip a ≠ [] := lstrip_ne_of_strip_ne hsa
    have hlast_a : ∀ c, (lstrip a).getLast? = some c → isPySpace c = false := by
      intro c hc
      have hac : a.getLast? = some c :=
        (getLast?_of_isSuf (lstrip_isSuffix a) hlne).trans hc
      apply rstrip_getLast?_not_space a
      rw [hRfix a haL]
      exact hac
    have hM1fix : ∀ l ∈ lstrip a :: rest, rstrip l = l := by
      intro l hl
      rcases List.mem_cons.mp hl with hl | hl
      · subst hl
        exact rstrip_eq_self_of_getLast? hlast_a
      · exact hRfix l (hmemL l (List.mem_cons_of_mem a hl))
    have hstep2 : rstrip (joinNl (lstrip a :: rest)) =
        joinNl (dropTailBlank (lstrip a :: rest)) := rstrip_joinNl hM1fix
    have hMpre : dropTailBlank (lstrip a :: rest) <+: lstrip a :: rest :=
      dropTailBlank_isPre _
    have hMne : dropTailBlank (lstrip a :: rest) ≠ [] := by
      intro hnil
      exact hlne (dropTailBlank_eq_nil_iff.mp hnil (lstrip a)
        (List.mem_cons_self _ _))
    have hMhead : (dropTailBlank (lstrip a :: rest)).head? = some (lstrip a) :=
      (head?_of_isPre hMpre hMne).symm
    have hMmem : ∀ l ∈ dropTailBlank (lstrip a :: rest), l ∈ lstrip a :: rest :=
      fun l hl => hMpre.subset hl
    have hset_a : strip (lstrip a) ≠ [] := by
      rw [strip, lstrip_idem]
      exact hsa
    have hM1mem : ∀ l ∈ lstrip a :: rest,
        ('\n' ∉ l) ∧ ('\r' ∉ l) ∧ (l = [] ∨ strip l ≠ []) := by
      intro l hl
      rcases List.mem_cons.mp hl with hl | hl
      · subst hl
        refine ⟨?_, ?_, Or.inr hset_a⟩
        · intro hm
          exact hNoNl a haL ((lstrip_isSuffix a).subset hm)
        · intro hm
          exact hNoCr a haL ((lstrip_isSuffix a).subset hm)
      · have hlL := hmemL l (List.mem_cons_of_mem a hl)
        exact ⟨hNoNl l hlL, hNoCr l hlL, hBlank l hlL⟩
    have hM1triple : noTripleBlank (lstrip a :: rest) := by
      apply noTripleBlank_cons_ne hlne
      apply noTripleBlank_tail (a := a)
      rw [← hdl2]
      exact noTripleBlank_dropWhile _ hTriple
    have hMtriple : noTripleBlank (dropTailBlank (lstrip a :: rest)) := by
      rcases exists_blank_dropLast (lstrip a :: rest) with ⟨E, _, hEeq⟩
      exact noTripleBlank_append_left (hEeq ▸ hM1triple)
    refine ⟨dropTailBlank (lstrip a :: rest), ⟨?_, ?_, ?_, ?_, hMtriple, ?_, ?_⟩, ?_⟩
    · exact fun l hl => (hM1mem l (hMmem l hl)).1
    · exact fun l hl => (hM1mem l (hMmem l hl)).2.1
    · exact fun l hl => hM1fix l (hMmem l hl)
    · exact fun l hl => (hM1mem l (hMmem l hl)).2.2
    · intro a2 rest2 heq
      have ha2 : a2 = lstrip a := by
        have h3 := hMhead
        rw [heq, List.head?_cons] at h3
        exact Option.some.inj h3
      subst ha2
      exact ⟨lstrip_idem a, hset_a⟩
    · exact fun e he => dropTailBlank_getLast?_ne he
    · rw [hshow, strip, hstep1, hstep2]

theorem normalize_text_fixed {M : List (List Char)} (hM : NormLines M) :
    normalize_text (joinNl M ++ ['\n']) = joinNl M ++ ['\n'] := by
  cases M with
  | nil =>
    show normalize_text ['\n'] = ['\n']
    decide
  | cons a rest =>
    obtain ⟨hla, hsa⟩ := hM.headOk a rest rfl
    have haNe : a ≠ [] := fun h => hsa (by rw [h]; rfl)
    have hjne : joinNl (a :: rest) ≠ [] := joinNl_cons_ne_nil haNe rest
    have hnoCr : '\r' ∉ joinNl (a :: rest) ++ ['\n'] := by
      intro hm
      rcases List.mem_append.mp hm with hm | hm
      · rcases mem_joinNl hm with hm | ⟨l, hl, hcl⟩
        · exact absurd hm (by decide)
        · exact hM.no_cr l hl hcl
      · simp at hm
    have hshow : normalize_text (joinNl (a :: rest) ++ ['\n']) =
        strip (joinNl (collapseBlanks
          ((splitNl (crlfToLf (joinNl (a :: rest) ++ ['\n']))).map rstrip) 0))
          ++ ['\n'] := rfl
    have hmap : ((a :: rest) ++ [[]]).map rstrip = (a :: rest) ++ [[]] := by
      have hfix : ∀ l ∈ (a :: rest) ++ [[]], rstrip l = l := by
        intro l hl
        rcases List.mem_append.mp hl with hl | hl
        · exact hM.rfix l hl
        · simp at hl
          rw [hl]
          rfl
      rw [List.map_congr_left hfix, List.map_id']
    have hcollapse : collapseBlanks ((a :: rest) ++ [[]]) 0 = (a :: rest) ++ [[]] := by
      apply collapseBlanks_id
      · intro l hl
        rcases List.mem_append.mp hl with hl | hl
        · exact hM.blank_or l hl
        · simp at hl
          exact Or.inl hl
      · exact noTripleBlank_append_nil hM.triple hM.lastOk
      · rw [List.cons_append, leadE_cons_ne haNe]
        omega
    have hhead : ∀ c, (joinNl (a :: rest) ++ ['\n']).head? = some c →
        isPySpace c = false := by
      intro c hc
      have h1 : (joinNl (a :: rest)).head? = a.head? := head?_joinNl haNe rest
      rw [List.head?_append, h1] at hc
      have hahead : a.head? = some c := by
        cases hah : a.head? with
        | none => exact absurd (List.head?_eq_none_iff.mp hah) haNe
        | some c1 =>
          rw [hah, Option.or_some] at hc
          exact hc
      apply lstrip_head?_not_space a
      rw [hla]
      exact hahead
    have hlstrip : lstrip (joinNl (a :: rest) ++ ['\n']) =
        joinNl (a :: rest) ++ ['\n'] := lstrip_eq_self_of_head? hhead
    have hrstrip : rstrip (joinNl (a :: rest)) = joinNl (a :: rest) := by
      apply rstrip_eq_self_of_getLast?
      intro c hc
      cases hgl : (a :: rest).getLast? with
      | none => exact absurd (List.getLast?_eq_none_iff.mp hgl) (by simp)
      | some e =>
        have heNe : e ≠ [] := hM.lastOk e hgl
        rw [getLast?_joinNl hgl heNe] at hc
        apply rstrip_getLast?_not_space e
        rw [hM.rfix e (List.mem_of_getLast?_eq_some hgl)]
        exact hc
    have hsp : ∀ c ∈ ['\n'], isPySpace c = true := by
      intro c hc
      simp at hc
      subst hc
      rfl
    have hstrip2 : strip (joinNl (a :: rest) ++ ['\n']) = joinNl (a :: rest) := by
      rw [strip, hlstrip, rstrip_append_spaces hsp (joinNl (a :: rest)), hrstrip]
    rw [hshow, crlfToLf_of_no_cr hnoCr, splitNl_append_last_nl,
      splitNl_joinNl (by simp) hM.no_nl, hmap, hcollapse,
      joinNl_append_last_nil (by simp), hstrip2]

theorem nlRunBound_of_no_nl {s : List Char} (h : '\n' ∉ s) (k : Nat) :
    ∀ cur, nlRunBound k s cur = true := by
  induction s with
  | nil => intro cur; rfl
  | cons c rest ih =>
    intro cur
    rw [nlRunBound, if_neg (fun hc => h (by rw [hc]; exact List.mem_cons_self _ _))]
    exact ih (fun hm => h (List.mem_cons_of_mem c hm)) 0

theorem nlRunBound_append_no_nl : ∀ {a : List Char}, '\n' ∉ a → a ≠ [] →
    ∀ (z : List Char) (k cur : Nat), nlRunBound k (a ++ z) cur = nlRunBound k z 0
  | [], _, ha, _, _, _ => absurd rfl ha
  | [c], h, _, z, k, cur => by
    rw [List.singleton_append, nlRunBound,
      if_neg (fun hc => h (by rw [hc]; exact List.mem_cons_self _ _))]
  | c :: c2 :: rest, h, _, z, k, cur => by
    rw [List.cons_append, nlRunBound,
      if_neg (fun hc => h (by rw [hc]; exact List.mem_cons_self _ _))]
    exact nlRunBound_append_no_nl (fun hm => h (List.mem_cons_of_mem c hm))
      (by simp) z k 0

theorem nlRunBound_joinNl : ∀ {M : List (List Char)},
    (∀ l ∈ M, '\n' ∉ l) → noTripleBlank M →
    ∀ cur, cur + leadE M ≤ 3 → nlRunBound 3 (joinNl M) cur = true
  | [], _, _, _, _ => rfl
  | [a], hfree, _, cur, _ =>
    nlRunBound_of_no_nl (hfree a (List.mem_cons_self a [])) 3 cur
  | a :: b :: rs, hfree, htriple, cur, hlead => by
    have hfree2 : ∀ l ∈ b :: rs, '\n' ∉ l :=
      fun l hl => hfree l (List.mem_cons_of_mem a hl)
    have htriple2 : noTripleBlank (b :: rs) := noTripleBlank_tail htriple
    rw [joinNl_cons (by simp : (b : List Char) :: rs ≠ [])]
    by_cases ha : a = []
    · subst ha
      rw [List.nil_append, nlRunBound, if_pos rfl]
      rw [leadE] at hlead
      have h1 : decide (cur + 1 ≤ 3) = true := by
        rw [decide_eq_true_iff]
        omega
      rw [h1, Bool.true_and]
      exact nlRunBound_joinNl hfree2 htriple2 (cur + 1) (by omega)
    · rw [nlRunBound_append_no_nl (hfree a (List.mem_cons_self _ _)) ha]
      rw [nlRunBound, if_pos rfl]
      have h1 : decide (0 + 1 ≤ 3) = true := by
        rw [decide_eq_true_iff]
        omega
      rw [h1, Bool.true_and]
      refine nlRunBound_joinNl hfree2 htriple2 1 ?_
      have := leadE_le_two_of_noTriple htriple2
      omega

theorem nlRunBound_append_of_last : ∀ {B : List Char} {z : List Char}
    {k cur : Nat}, B ≠ [] → (∀ c, B.getLast? = some c → c ≠ '\n') →
    nlRunBound k B cur = true → nlRunBound k z 0 = true →
    nlRunBound k (B ++ z) cur = true
  | [], _, _, _, hB, _, _, _ => absurd rfl hB
  | [b], z, k, cur, _, hlast, _, h2 => by
    rw [List.singleton_append, nlRunBound,
      if_neg (hlast b (by simp))]
    exact h2
  | b :: b2 :: B', z, k, cur, _, hlast, h1, h2 => by
    rw [List.cons_append]
    rw [nlRunBound] at h1 ⊢
    have hlast2 : ∀ c, (b2 :: B').getLast? = some c → c ≠ '\n' :=
      fun c hc => hlast c (by rw [List.getLast?_cons_cons]; exact hc)
    by_cases hb : b = '\n'
    · rw [if_pos hb] at h1 ⊢
      rcases Bool.and_eq_true_iff.mp h1 with ⟨hd, hrec⟩
      rw [hd, Bool.true_and]
      exact nlRunBound_append_of_last (by simp) hlast2 hrec h2
    · rw [if_neg hb] at h1 ⊢
      exact nlRunBound_append_of_last (by simp) hlast2 h1 h2

theorem endsOneNl_append {B : List Char}
    (h : ∀ c, B.getLast? = some c → c ≠ '\n') :
    endsOneNl (B ++ ['\n']) = true := by
  rw [endsOneNl]
  have hrev : (B ++ ['\n']).reverse = '\n' :: B.reverse := by simp
  rw [hrev]
  cases hr : B.reverse with
  | nil => rfl
  | cons d t =>
    have hd : B.getLast? = some d := by
      rw [← List.head?_reverse, hr]
      rfl
    simp [h d hd]

/-- Last character of the document body produced by `normalize_text` is
not a newline. -/
theorem normLines_last_not_nl {M : List (List Char)} (hM : NormLines M) :
    ∀ c, (joinNl M).getLast? = some c → c ≠ '\n' := by
  intro c hc
  cases M with
  | nil => simp [joinNl] at hc
  | cons a rest =>
    cases hgl : (a :: rest).getLast? with
    | none => exact absurd (List.getLast?_eq_none_iff.mp hgl) (by simp)
    | some e =>
      have heNe : e ≠ [] := hM.lastOk e hgl
      rw [getLast?_joinNl hgl heNe] at hc
      have hns : isPySpace c = false := by
        apply rstrip_getLast?_not_space e
        rw [hM.rfix e (List.mem_of_getLast?_eq_some hgl)]
        exact hc
      intro hcnl
      rw [hcnl] at hns
      exact Bool.noConfusion hns

/-- C2 (amended): `normalize_text` output never contains four or more
consecutive newline characters (equivalently, never more than two
consecutive blank lines) and always ends with exactly one trailing
newline. -/
theorem normalize_text_runs_amended (x : List Char) :
    nlRunBound 3 (normalize_text x) 0 = true ∧
      endsOneNl (normalize_text x) = true := by
  obtain ⟨M, hM, heq⟩ := normalize_text_struct x
  rw [heq]
  constructor
  · cases M with
    | nil => rfl
    | cons a rest =>
      have haNe : a ≠ [] := by
        obtain ⟨_, hsa⟩ := hM.headOk a rest rfl
        exact fun h => hsa (by rw [h]; rfl)
      refine nlRunBound_append_of_last ?_ (normLines_last_not_nl hM) ?_ rfl
      · exact joinNl_cons_ne_nil haNe rest
      · refine nlRunBound_joinNl hM.no_nl hM.triple 0 ?_
        have := leadE_le_two_of_noTriple hM.triple
        omega
  · exact endsOneNl_append (normLines_last_not_nl hM)

/-- C2 counterexample: on input `"a\n\n\nb"` (two blank lines between two
words) the output is `"a\n\n\nb\n"`, which contains a run of three
consecutive newline characters, so the claim "never 3 or more consecutive
newlines" fails on the code. -/
theorem normalize_text_three_newlines :
    normalize_text ("a\n\n\nb".toList) = "a\n\n\nb\n".toList ∧
      nlRunBound 2 (normalize_text ("a\n\n\nb".toList)) 0 = false := by
  constructor
  · rfl
  · rfl

/-- C8: `normalize_markdown` is idempotent. -/
theorem normalize_markdown_idem (x : List Char) :
    normalize_markdown (normalize_markdown x) = normalize_markdown x := by
  rw [normalize_markdown, normalize_markdown]
  have hnoCr : '\r' ∉ strip (crlfToLf x) ++ ['\n'] := by
    intro hm
    rcases List.mem_append.mp hm with hm | hm
    · exact crlfToLf_no_cr x (strip_subset (crlfToLf x) '\r' hm)
    · simp at hm
  rw [crlfToLf_of_no_cr hnoCr]
  by_cases hnil : strip (crlfToLf x) = []
  · rw [hnil]
    rfl
  · have hsp : ∀ c ∈ ['\n'], isPySpace c = true := by
      intro c hc
      simp at hc
      subst hc
      rfl
    have hhead : ∀ c, (strip (crlfToLf x) ++ ['\n']).head? = some c →
        isPySpace c = false := by
      intro c hc
      rw [List.head?_append] at hc
      apply strip_head?_not_space (crlfToLf x)
      cases hah : (strip (crlfToLf x)).head? with
      | none => exact absurd (List.head?_eq_none_iff.mp hah) hnil
      | some c1 =>
        rw [hah, Option.or_some] at hc
        exact hc
    rw [strip, lstrip_eq_self_of_head? hhead,
      rstrip_append_spaces hsp (strip (crlfToLf x)),
      rstrip_eq_self_of_getLast?
        (fun c hc => strip_getLast?_not_space (crlfToLf x) hc)]

/-- C10: `normalize_text` is idempotent. -/
theorem normalize_text_idem (x : List Char) :
    normalize_text (normalize_text x) = normalize_text x := by
  obtain ⟨M, hM, heq⟩ := normalize_text_struct x
  rw [heq]
  exact normalize_text_fixed hM

/-- C3 (amended): `make_flat_filename` appends `.txt` when
`output_format` is `"txt"` and `.md` for every other value — in
particular `.md` for `"markdown"`, but also `.md` (not `.txt`) for any
unrecognized format string. -/
theorem make_flat_filename_ext (relative_path : List (List Char))
    (output_format : List Char) :
    (if output_format = "txt".toList then ".txt".toList else ".md".toList)
      <:+ make_flat_filename relative_path output_format := by
  rw [make_flat_filename]
  by_cases h : output_format = "txt".toList
  · rw [if_pos h]
    exact List.suffix_append _ _
  · rw [if_neg h]
    exact List.suffix_append _ _

set_option maxRecDepth 100000 in
/-- C3 counterexample: with `output_format = "rst"` — a value that is
neither `"markdown"` nor `"txt"` — the produced filename is
`a__b244432e.md`: it ends in `.md`, not `.txt` as the claim requires for
every non-markdown format. -/
theorem make_flat_filename_cex :
    make_flat_filename ["a.html".toList] ("rst".toList) = "a__b244432e.md".toList ∧
      ¬ (".txt".toList <:+ make_flat_filename ["a.html".toList] ("rst".toList)) := by
  constructor
  · rfl
  · decide

/-- C1 (amended): calling `write_output_text` with `overwrite = false` on
an existing target path: when the filesystem stat fails, the file is left
unchanged and the existing path is returned; when the existing file is
non-empty it is likewise left unchanged; but when the existing file is
empty the function rewrites it with the new text and returns its path. -/
theorem write_output_overwrite_policy (fs : FS)
    (text output_format : List Char)
    (input_dir output_dir input_file : List (List Char)) (flat_output : Bool)
    (op content : List Char)
    (hres : resolve_out_path output_format input_dir output_dir input_file
      flat_output = Except.ok op)
    (hex : fsLookup fs op = some content) :
    (op ∈ fs.statFails →
      write_output_text fs text output_format input_dir output_dir input_file
        false flat_output = Except.ok (fs, op)) ∧
    (op ∉ fs.statFails → content ≠ [] →
      write_output_text fs text output_format input_dir output_dir input_file
        false flat_output = Except.ok (fs, op)) ∧
    (op ∉ fs.statFails → content = [] → op ∉ fs.writeFails →
      write_output_text fs text output_format input_dir output_dir input_file
        false flat_output = Except.ok (fsWrite fs op text, op)) := by
  have hred : write_output_text fs text output_format input_dir output_dir
      input_file false flat_output =
      (if op ∈ fs.statFails then Except.ok (fs, op)
       else if content.length > 0 then Except.ok (fs, op)
       else fsWriteText fs op text) := by
    rw [write_output_text, hres]
    simp only [hex, Option.isSome_some, Bool.not_false, Bool.and_true, if_true]
  refine ⟨?_, ?_, ?_⟩
  · intro hstat
    rw [hred, if_pos hstat]
  · intro hstat hne
    rw [hred, if_neg hstat, if_pos (List.length_pos.mpr hne)]
  · intro hstat hnil hwr
    subst hnil
    rw [hred, if_neg hstat, if_neg (by simp), fsWriteText, if_neg hwr]

set_option maxRecDepth 100000 in
/-- C1 counterexample: the output file `out/a__b244432e.txt` exists and is
empty, `overwrite = false`, stat succeeds — yet the function rewrites the
file with the new text (the claim says the existing file is never
overwritten in this situation). -/
theorem write_output_empty_overwritten :
    write_output_text ⟨[("out/a__b244432e.txt".toList, [])], [], []⟩
        "x".toList "txt".toList ["in".toList] ["out".toList]
        ["in".toList, "a.html".toList] false true =
      Except.ok
        (⟨[("out/a__b244432e.txt".toList, "x".toList)], [], []⟩,
          "out/a__b244432e.txt".toList) := by
  rfl

set_option maxRecDepth 100000 in
/-- C1 witness: concrete instance of the amended overwrite policy — the
target exists (empty) and its stat fails, so the file is left unchanged
and the existing path is returned. -/
theorem write_output_overwrite_policy_witness :
    write_output_text
        ⟨[("out/a__b244432e.txt".toList, [])], ["out/a__b244432e.txt".toList], []⟩
        "x".toList "txt".toList ["in".toList] ["out".toList]
        ["in".toList, "a.html".toList] false true =
      Except.ok
        (⟨[("out/a__b244432e.txt".toList, [])],
          ["out/a__b244432e.txt".toList], []⟩, "out/a__b244432e.txt".toList) :=
  (write_output_overwrite_policy
    ⟨[("out/a__b244432e.txt".toList, [])], ["out/a__b244432e.txt".toList], []⟩
    "x".toList "txt".toList ["in".toList] ["out".toList]
    ["in".toList, "a.html".toList] true "out/a__b244432e.txt".toList []
    (by rfl) (by rfl)).1 (List.mem_singleton.mpr rfl)

/-! ## `run_batch` lemmas and claims C4, C6, C7 -/

theorem runLoop_none (env : BatchEnv) (cfg : BatchCfg) :
    ∀ (files : List (List (List Char))) (fs : FS) (count : Nat),
      runLoop env cfg files fs count none = processAll env cfg files fs := by
  intro files
  induction files with
  | nil => intro fs count; rfl
  | cons f rest ih =>
    intro fs count
    rw [runLoop, show limitReached none count = false from rfl]
    simp only [Bool.false_eq_true, if_false]
    rw [ih]
    rfl

theorem runLoop_some (env : BatchEnv) (cfg : BatchCfg) :
    ∀ (files : List (List (List Char))) (fs : FS) (count n : Nat),
      runLoop env cfg files fs count (some n) =
        processAll env cfg (files.take (n - count)) fs := by
  intro files
  induction files with
  | nil =>
    intro fs count n
    simp [runLoop, processAll]
  | cons f rest ih =>
    intro fs count n
    rw [runLoop, limitReached]
    by_cases hn : n ≤ count
    · rw [if_pos (by simpa using hn), Nat.sub_eq_zero_of_le hn]
      rfl
    · rw [if_neg (by simpa using hn)]
      simp only [ih]
      have h1 : n - count = (n - (count + 1)) + 1 := by omega
      rw [h1, List.take_succ_cons]
      rfl

theorem runLoop_takeLimit (env : BatchEnv) (cfg : BatchCfg)
    (files : List (List (List Char))) (fs : FS) (limit : Option Nat) :
    runLoop env cfg files fs 0 limit =
      processAll env cfg (takeLimit limit files) fs := by
  cases limit with
  | none => rw [runLoop_none]; rfl
  | some n => rw [runLoop_some, Nat.sub_zero]; rfl

theorem processDoc_input_path (env : BatchEnv) (cfg : BatchCfg) (fs : FS)
    (f : List (List Char)) :
    (processDoc env cfg fs f).2.input_path = pathStr f := by
  rw [processDoc]
  cases docTry env cfg fs f with
  | ok v => rfl
  | error e => rfl

theorem processAll_map_input (env : BatchEnv) (cfg : BatchCfg) :
    ∀ (files : List (List (List Char))) (fs : FS),
      (processAll env cfg files fs).1.map (fun r => r.input_path) =
        files.map pathStr := by
  intro files
  induction files with
  | nil => intro fs; rfl
  | cons f rest ih =>
    intro fs
    rw [processAll]
    simp only [List.map_cons]
    rw [processDoc_input_path, ih]

theorem processAll_length (env : BatchEnv) (cfg : BatchCfg) :
    ∀ (files : List (List (List Char))) (fs : FS),
      (processAll env cfg files fs).1.length = files.length := by
  intro files
  induction files with
  | nil => intro fs; rfl
  | cons f rest ih =>
    intro fs
    rw [processAll]
    simp only [List.length_cons]
    rw [ih]

theorem processAll_append (env : BatchEnv) (cfg : BatchCfg) :
    ∀ (X Y : List (List (List Char))) (fs : FS),
      processAll env cfg (X ++ Y) fs =
        ((processAll env cfg X fs).1 ++
          (processAll env cfg Y (processAll env cfg X fs).2).1,
          (processAll env cfg Y (processAll env cfg X fs).2).2) := by
  intro X
  induction X with
  | nil => intro Y fs; rfl
  | cons f rest ih =>
    intro Y fs
    rw [List.cons_append, processAll, ih, processAll]
    rfl

theorem countP_ok_add_not (l : List CleanResult) :
    l.countP (fun r => r.ok) + l.countP (fun r => !r.ok) = l.length := by
  induction l with
  | nil => rfl
  | cons r rest ih =>
    rw [List.countP_cons, List.countP_cons, List.length_cons]
    cases hok : r.ok <;> simp [hok] <;> omega

/-- C4: every completed `run_batch` writes a manifest whose `total` equals
`ok + failed` and equals the length of the results list, with `ok`
counting exactly the successful results and `failed` the unsuccessful
ones. -/
theorem run_batch_manifest_totals (env : BatchEnv) (cfg : BatchCfg) (fs : FS)
    (ex : Bool) (limit : Option Nat) (files : List (List (List Char)))
    (now : List Char) (rs : List CleanResult) (m : Manifest) (fs2 : FS)
    (hrun : run_batch env cfg fs ex limit files now = Except.ok (rs, m, fs2)) :
    m.total = m.ok + m.failed ∧ m.total = m.results.length ∧
      m.ok = m.results.countP (fun r => r.ok) ∧
      m.failed = m.results.countP (fun r => !r.ok) ∧ m.results = rs := by
  cases ex with
  | false =>
    rw [run_batch] at hrun
    simp at hrun
  | true =>
    rw [run_batch] at hrun
    simp only [Bool.not_true, Bool.false_eq_true, if_false,
      Except.ok.injEq, Prod.mk.injEq] at hrun
    obtain ⟨h1, h2, h3⟩ := hrun
    subst h1
    subst h3
    rw [← h2]
    refine ⟨?_, rfl, rfl, rfl, rfl⟩
    exact (countP_ok_add_not _).symm

/-- C4 witness: a concrete completed batch run (empty input list)
satisfies the manifest invariants. -/
theorem run_batch_manifest_totals_witness :
    (Manifest.mk "t".toList "in".toList "out".toList 0 0 0 []).total =
        (Manifest.mk "t".toList "in".toList "out".toList 0 0 0 []).ok +
          (Manifest.mk "t".toList "in".toList "out".toList 0 0 0 []).failed ∧
      (Manifest.mk "t".toList "in".toList "out".toList 0 0 0 []).total =
        (Manifest.mk "t".toList "in".toList "out".toList 0 0 0 []).results.length ∧
      (Manifest.mk "t".toList "in".toList "out".toList 0 0 0 []).ok =
        (Manifest.mk "t".toList "in".toList "out".toList 0 0 0
          []).results.countP (fun r => r.ok) ∧
      (Manifest.mk "t".toList "in".toList "out".toList 0 0 0 []).failed =
        (Manifest.mk "t".toList "in".toList "out".toList 0 0 0
          []).results.countP (fun r => !r.ok) ∧
      (Manifest.mk "t".toList "in".toList "out".toList 0 0 0 []).results =
        ([] : List CleanResult) :=
  run_batch_manifest_totals
    ⟨fun _ => Except.ok "h".toList, fun _ _ _ _ => none⟩
    ⟨"txt".toList, ["in".toList], ["out".toList], true, true, true, false⟩
    ⟨[], [], []⟩ true none [] "t".toList []
    (Manifest.mk "t".toList "in".toList "out".toList 0 0 0 [])
    ⟨[], [], []⟩ (by rfl)

/-- C6: with limit `n`, `run_batch` processes exactly the first `n`
documents of the sorted order: the results are those of processing
`(sortFiles files).take n`, one entry per processed document (in order)
and none for any document beyond the limit. -/
theorem run_batch_limit_take (env : BatchEnv) (cfg : BatchCfg) (fs : FS)
    (n : Nat) (files : List (List (List Char))) (now : List Char) :
    (run_batch env cfg fs true (some n) files now).map (fun t => t.1) =
        Except.ok (processAll env cfg ((sortFiles files).take n) fs).1 ∧
      (processAll env cfg ((sortFiles files).take n) fs).1.length =
        min n (sortFiles files).length ∧
      (processAll env cfg ((sortFiles files).take n) fs).1.map
        (fun r => r.input_path) = ((sortFiles files).take n).map pathStr := by
  refine ⟨?_, ?_, ?_⟩
  · rw [run_batch]
    simp only [Bool.not_true, Bool.false_eq_true, if_false]
    rw [runLoop_takeLimit]
    rfl
  · rw [processAll_length, List.length_take]
  · exact processAll_map_input env cfg _ fs

/-- C7: when the conversion or output-path resolution of one processed
document fails, `run_batch` records a failed result for it — ok is false,
no output path, zero extracted characters, the failure message as error —
and still processes every subsequent document. -/
theorem run_batch_partial_failure (env : BatchEnv) (cfg : BatchCfg) (fs : FS)
    (limit : Option Nat) (files : List (List (List Char))) (now : List Char)
    (pre : List (List (List Char))) (f : List (List Char))
    (post : List (List (List Char))) (e : List Char)
    (hsplit : takeLimit limit (sortFiles files) = pre ++ f :: post)
    (hfail : docTry env cfg (processAll env cfg pre fs).2 f = Except.error e) :
    (run_batch env cfg fs true limit files now).map (fun t => t.1) =
      Except.ok ((processAll env cfg pre fs).1 ++
        ⟨pathStr f, none, false, 0, some e⟩ ::
          (processAll env cfg post (processAll env cfg pre fs).2).1) := by
  rw [run_batch]
  simp only [Bool.not_true, Bool.false_eq_true, if_false]
  rw [runLoop_takeLimit, hsplit, processAll_append]
  have hstep : processAll env cfg (f :: post) (processAll env cfg pre fs).2 =
      (CleanResult.mk (pathStr f) none false 0 (some e) ::
        (processAll env cfg post (processAll env cfg pre fs).2).1,
        (processAll env cfg post (processAll env cfg pre fs).2).2) := by
    rw [processAll, processDoc, hfail]
  rw [hstep]
  rfl

/-- C7 witness: two concrete documents whose extraction both fail — the
first failure is recorded and the second document is still processed. -/
theorem run_batch_partial_failure_witness :
    (run_batch ⟨fun _ => Except.ok "h".toList, fun _ _ _ _ => none⟩
        ⟨"txt".toList, ["in".toList], ["out".toList], true, true, true, false⟩
        ⟨[], [], []⟩ true none
        [["in".toList, "a.html".toList], ["in".toList, "b.html".toList]]
        "t".toList).map (fun t => t.1) =
      Except.ok
        ((processAll ⟨fun _ => Except.ok "h".toList, fun _ _ _ _ => none⟩
            ⟨"txt".toList, ["in".toList], ["out".toList], true, true, true, false⟩
            [] ⟨[], [], []⟩).1 ++
          ⟨pathStr ["in".toList, "a.html".toList], none, false, 0,
            some "Trafilatura could not extract main text (empty result).".toList⟩ ::
          (processAll ⟨fun _ => Except.ok "h".toList, fun _ _ _ _ => none⟩
            ⟨"txt".toList, ["in".toList], ["out".toList], true, true, true, false⟩
            [["in".toList, "b.html".toList]]
            (processAll ⟨fun _ => Except.ok "h".toList, fun _ _ _ _ => none⟩
              ⟨"txt".toList, ["in".toList], ["out".toList], true, true, true, false⟩
              [] ⟨[], [], []⟩).2).1) :=
  run_batch_partial_failure
    ⟨fun _ => Except.ok "h".toList, fun _ _ _ _ => none⟩
    ⟨"txt".toList, ["in".toList], ["out".toList], true, true, true, false⟩
    ⟨[], [], []⟩ none
    [["in".toList, "a.html".toList], ["in".toList, "b.html".toList]]
    "t".toList [] ["in".toList, "a.html".toList]
    [["in".toList, "b.html".toList]]
    "Trafilatura could not extract main text (empty result).".toList
    (by rfl) (by rfl)

theorem maxScore_cons (p : List Char) (s : Nat) (X : List (List Char × Nat)) :
    maxScore ((p, s) :: X) = max s (maxScore X) := rfl

theorem foldr_max_mem : ∀ (l : List Nat), l ≠ [] → l.foldr max 0 ∈ l
  | [], h => absurd rfl h
  | x :: l, _ => by
    rw [List.foldr_cons]
    rcases eq_or_ne l [] with hl | hl
    · subst hl
      simp
    · rcases max_choice x (l.foldr max 0) with hm | hm
      · rw [hm]
        exact List.mem_cons_self x l
      · rw [hm]
        exact List.mem_cons_of_mem x (foldr_max_mem l hl)

theorem maxScore_attained {l : List (List Char × Nat)} (h : l ≠ []) :
    ∃ e ∈ l, e.2 = maxScore l := by
  have hmem : maxScore l ∈ l.map (fun e => e.2) :=
    foldr_max_mem _ (by simpa using h)
  rcases List.mem_map.mp hmem with ⟨e, he, heq⟩
  exact ⟨e, he, heq⟩

theorem findLoop_spec (terms : List (List Char)) :
    ∀ (corpus : List (List Char × Option (List Char)))
      (best : Option (List Char)) (m : Nat),
      findLoop terms corpus best m =
        if maxScore (scoredWith terms corpus) ≤ m then best
        else ((scoredWith terms corpus).find?
          (fun e => decide (e.2 = maxScore (scoredWith terms corpus)))).map
          (fun e => e.1) := by
  intro corpus
  induction corpus with
  | nil =>
    intro best m
    rw [findLoop,
      if_pos (show maxScore (scoredWith terms []) ≤ m from Nat.zero_le m)]
  | cons pc rest ih =>
    intro best m
    rcases pc with ⟨p, contentOpt⟩
    cases contentOpt with
    | none =>
      have hsc : scoredWith terms ((p, none) :: rest) = scoredWith terms rest := by
        rw [scoredWith, List.filterMap_cons]
        rfl
      rw [findLoop, hsc]
      exact ih best m
    | some content =>
      have hsc : scoredWith terms ((p, some content) :: rest) =
          (p, docScore terms content) :: scoredWith terms rest := by
        rw [scoredWith, List.filterMap_cons]
        rfl
      rw [findLoop, hsc, maxScore_cons]
      by_cases hms : m < docScore terms content
      · rw [if_pos hms, ih]
        by_cases hM : maxScore (scoredWith terms rest) ≤ docScore terms content
        · rw [if_pos hM, Nat.max_eq_left hM,
            if_neg (by omega),
            List.find?_cons_of_pos _ (by simp)]
          rfl
        · rw [if_neg hM,
            Nat.max_eq_right (Nat.le_of_lt (Nat.lt_of_not_le hM)),
            if_neg (by omega),
            List.find?_cons_of_neg _ (by simp; omega)]
      · rw [if_neg hms, ih]
        by_cases hM : maxScore (scoredWith terms rest) ≤ m
        · rw [if_pos hM,
            if_pos (Nat.max_le.mpr ⟨Nat.le_of_not_lt hms, hM⟩)]
        · have hM2 : m < maxScore (scoredWith terms rest) := Nat.lt_of_not_le hM
          have hsM : docScore terms content ≤ maxScore (scoredWith terms rest) := by
            have := Nat.le_of_not_lt hms
            omega
          rw [if_neg hM, Nat.max_eq_right hsM, if_neg (by omega),
            List.find?_cons_of_neg _ (by simp; omega)]

/-- C5: `_find_best_article` returns none exactly when no readable
document has a positive score (in particular for an empty corpus);
otherwise it returns the first document, in enumeration order, whose
score equals the maximum score — a later candidate replaces the running
best only on a strictly greater score. -/
theorem find_best_article_selection
    (corpus : List (List Char × Option (List Char))) (query : List Char) :
    (find_best_article corpus query = none ↔
      maxScore (scoredDocs corpus query) = 0) ∧
    (0 < maxScore (scoredDocs corpus query) →
      find_best_article corpus query =
        ((scoredDocs corpus query).find?
          (fun e => decide (e.2 = maxScore (scoredDocs corpus query)))).map
          (fun e => e.1)) := by
  have h := findLoop_spec (queryTerms query) corpus none 0
  rw [find_best_article, h]
  constructor
  · by_cases hM : maxScore (scoredDocs corpus query) = 0
    · rw [if_pos (by rw [scoredDocs] at hM; omega)]
      simp [hM]
    · rw [if_neg (by rw [scoredDocs] at hM; omega)]
      have hne : scoredWith (queryTerms query) corpus ≠ [] := by
        intro hnil
        apply hM
        rw [scoredDocs, scoredWith] at *
        rw [hnil]
        rfl
      rcases maxScore_attained hne with ⟨e, he, heq⟩
      have hfind : ((scoredWith (queryTerms query) corpus).find?
          (fun x => decide (x.2 = maxScore (scoredWith (queryTerms query)
            corpus)))).isSome := by
        rw [List.find?_isSome]
        exact ⟨e, he, by simp [heq]⟩
      constructor
      · intro hnone
        cases hl : (scoredWith (queryTerms query) corpus).find?
            (fun x => decide (x.2 = maxScore (scoredWith (queryTerms query)
              corpus))) with
        | none => rw [hl] at hfind; exact Bool.noConfusion hfind
        | some v => rw [hl] at hnone; exact Option.noConfusion hnone
      · intro h0
        exact absurd h0 hM
  · intro hpos
    rw [if_neg (by rw [scoredDocs] at hpos; omega)]
    rfl

/-- C5 witness: a two-document corpus where the first document scores 2
and the second 0 for the query "iran": the maximum is positive and the
first maximal document is selected. -/
theorem find_best_article_selection_witness :
    0 < maxScore (scoredDocs
        [("a.md".toList, some "iran iran".toList),
         ("b.md".toList, some "x".toList)] "iran".toList) ∧
      find_best_article
        [("a.md".toList, some "iran iran".toList),
         ("b.md".toList, some "x".toList)] "iran".toList =
      ((scoredDocs
        [("a.md".toList, some "iran iran".toList),
         ("b.md".toList, some "x".toList)] "iran".toList).find?
          (fun e => decide (e.2 = maxScore (scoredDocs
            [("a.md".toList, some "iran iran".toList),
             ("b.md".toList, some "x".toList)] "iran".toList)))).map
          (fun e => e.1) :=
  ⟨by decide,
    (find_best_article_selection
      [("a.md".toList, some "iran iran".toList),
       ("b.md".toList, some "x".toList)] "iran".toList).2 (by decide)⟩

/-- C9: when the retriever finds no matching document, the stream is
exactly the single terminal message and the completion collaborator is
never invoked — for every possible collaborator and file reader. -/
theorem ask_news_stream_no_match (ollama : List Char → List (List Char))
    (read : List Char → Except (List Char) (List Char))
    (corpus : List (List Char × Option (List Char))) (question : List Char)
    (h : find_best_article corpus question = none) :
    ask_news_logic_stream ollama read corpus question = ⟨[noRelevantMsg], 0⟩ := by
  rw [ask_news_logic_stream, h]

/-- C9 witness: on the empty corpus the retriever finds nothing, so the
stream is the single terminal message and the collaborator invocation
count is zero, even for a collaborator that would produce tokens. -/
theorem ask_news_stream_no_match_witness :
    ask_news_logic_stream (fun _ => ["tok".toList])
      (fun _ => Except.ok "c".toList) [] "anything".toList =
      ⟨[noRelevantMsg], 0⟩ :=
  ask_news_stream_no_match (fun _ => ["tok".toList])
    (fun _ => Except.ok "c".toList) [] "anything".toList (by rfl)

end Scraper
